import Mathlib

/-!
Verification of the collision-safe bulk file/directory copy engine of
`utilities/fileio.py` (functions `ensureCountedPath`, `copySingleFile`,
`copyMultipleFiles`, `copyFiles` and their helpers).

Shallow embedding conventions:
* A filesystem path is a resolved absolute path, modelled as its list of
  name components (`FPath`).  The filesystem is a pair of lists of paths:
  the regular files and the directories (`FS`); membership is what matters,
  the lists play the role of sets.
* Python dictionaries keyed by paths are association lists (`AList`) with
  Python's `dict` semantics: inserting an existing key replaces its value
  in place, a new key is appended (`dinsert`).
* `pathlib.Path.glob` is an external library call; a glob selector is
  therefore embedded as an oracle: either the `None`/empty sentinel
  (meaning the source root itself) or the concrete list of paths the glob
  returned (`Selector.matches`).
* The regular-expression machinery of `ensureCountedPath` is embedded for
  the patterns the function builds: the compiled regex is a sequence of
  literal characters and digit-capturing groups `([0-9]*)`, matched with
  Python's leftmost-greedy backtracking semantics (`matchToks`).
  Characters of the stem or format that are regex metacharacters would be
  interpreted by `re` as operators; the embedding treats them literally,
  which agrees with the source on all metacharacter-free names.
* Exceptions are explicit result constructors; a function that can raise
  returns its partial filesystem state alongside the result.
-/

namespace Fileio

/-- A resolved absolute path: its list of name components. -/
abbrev FPath := List String

/-- The filesystem state: the set of regular files and the set of
directories, as lists used up to membership. -/
structure FS where
  files : List FPath
  dirs : List FPath
deriving DecidableEq, Repr

/-- Python `Path.exists()`: the path is a file or a directory. -/
def existsP (fs : FS) (p : FPath) : Bool :=
  decide (p ∈ fs.files) || decide (p ∈ fs.dirs)

/-- Python `Path.parent`: drop the last component. -/
def parentP (p : FPath) : FPath := p.dropLast

/-- Python `Path.name` (last component; empty for the root). -/
def lastName (p : FPath) : String := p.getLastD ""

/-- Strict descendants of `p` among the files of `fs`. -/
def descFiles (fs : FS) (p : FPath) : List FPath :=
  fs.files.filter (fun q => decide (p <+: q) && decide (q ≠ p))

/-- Strict descendants of `p` among the directories of `fs`. -/
def descDirs (fs : FS) (p : FPath) : List FPath :=
  fs.dirs.filter (fun q => decide (p <+: q) && decide (q ≠ p))

/-- The nonempty prefixes of a path, shortest first (the chain of
directories `os.makedirs` creates, up to and including the path). -/
def prefixList (p : FPath) : List FPath :=
  (List.range p.length).map (fun i => p.take (i + 1))

/-- Python `path.mkdir(parents=True, exist_ok=True)` / `os.makedirs`: create
the whole chain of missing ancestor directories.  (If some ancestor exists
as a regular file the real call raises; well-formedness side conditions in
the theorems keep us out of that corner.) -/
def mkdirParents (fs : FS) (p : FPath) : FS :=
  { fs with dirs := fs.dirs ++ (prefixList p).filter (fun q => decide (q ∉ fs.dirs)) }

/-- Python `ensureDir`: no-op for an empty path or an existing directory,
otherwise create the directory chain. -/
def ensureDir (fs : FS) (p : FPath) : FS :=
  if p = [] ∨ p ∈ fs.dirs then fs else mkdirParents fs p

/-! ### Name splitting (pathlib `stem`/`suffix`) -/

/-- Index of the last dot of a name, as `str.rfind`. -/
def lastDotIdx (cs : List Char) : Option Nat :=
  match cs.reverse.findIdx? (fun c => c = '.') with
  | none => none
  | some r => some (cs.length - 1 - r)

/-- Pathlib split of a name into `(stem, suffix)`: split at the last dot
when it is neither leading nor trailing, otherwise the suffix is empty. -/
def stemSuffix (n : String) : String × String :=
  let cs := n.toList
  match lastDotIdx cs with
  | some i =>
      if 0 < i ∧ i < cs.length - 1 then (String.mk (cs.take i), String.mk (cs.drop i))
      else (n, "")
  | none => (n, "")

/-! ### Integer placeholders and `%`-formatting -/

/-- Digits of a character list interpreted as a decimal number
(Python `int` on a digit string). -/
def natOfDigits (cs : List Char) : Nat :=
  cs.foldl (fun n c => n * 10 + (c.toNat - '0'.toNat)) 0

/-- Match `%0?[0-9]*d` at the head of the string: the regex's greedy match
takes the maximal digit run after the percent and then requires `d`.
Returns the matched placeholder text and the remainder. -/
def phAt (cs : List Char) : Option (List Char × List Char) :=
  match cs with
  | '%' :: rest =>
      let ds := rest.takeWhile Char.isDigit
      match rest.dropWhile Char.isDigit with
      | 'd' :: rr => some ('%' :: (ds ++ ['d']), rr)
      | _ => none
  | _ => none

/-- Semantics of `re.match(".*(%0?[0-9]*d).*", fmt)`: the greedy leading
`.*` makes group 1 the placeholder at the last feasible start position.
Returns `(before, placeholder, after)`. -/
def findPhLast : List Char → Option (List Char × List Char × List Char)
  | [] => none
  | c :: cs =>
      match findPhLast cs with
      | some (pre, ph, post) => some (c :: pre, ph, post)
      | none =>
          match phAt (c :: cs) with
          | some (ph, rest) => some ([], ph, rest)
          | none => none

/-- Render a placeholder `%0?[0-9]*d` applied to a number: pad the decimal
digits to the requested width, with zeros when the zero flag is present,
with spaces otherwise (printf semantics of Python `%`). -/
def renderPh (ph : List Char) (c : Nat) : List Char :=
  let mid := (ph.drop 1).dropLast
  let zeroFlag := mid.headD ' ' = '0'
  let width := natOfDigits mid
  let digits := Nat.toDigits 10 c
  let pad :=
    if width > digits.length then
      List.replicate (width - digits.length) (if zeroFlag then '0' else ' ')
    else []
  pad ++ digits

/-- Python `fmt % c` for a single integer argument, with fuel (the fuel is
always sufficient; it only makes the recursion structural).  `%%` is a
literal percent; exactly one conversion must be present and consume the
argument, otherwise the interpreter raises (`none`).  Conversions other
than `d` are collapsed to the error case; after the `%d`-placeholder
validation of `ensureCountedPath` a successful format always goes through
a `d` conversion. -/
def pyFmtGo (c : Nat) : Nat → List Char → Bool → Option (List Char)
  | 0, _, _ => none
  | _ + 1, [], used => if used then some [] else none
  | fuel + 1, '%' :: rest, used =>
      match rest with
      | '%' :: rr => (pyFmtGo c fuel rr used).map (fun out => '%' :: out)
      | _ =>
          match rest.dropWhile Char.isDigit with
          | 'd' :: rr =>
              if used then none
              else
                (pyFmtGo c fuel rr true).map
                  (fun out => renderPh ('%' :: (rest.takeWhile Char.isDigit ++ ['d'])) c ++ out)
          | _ => none
  | fuel + 1, ch :: rest, used => (pyFmtGo c fuel rest used).map (fun out => ch :: out)

/-- Python `fmt % c` (see `pyFmtGo`). -/
def pyFormat (fmt : List Char) (c : Nat) : Option (List Char) :=
  pyFmtGo c (fmt.length + 1) fmt false

/-! ### The compiled count regex -/

/-- The text of the capturing group `([0-9]*)` substituted for the
placeholder by `fmt.replace(pattern, "([0-9]*)")`. -/
def groupCs : List Char := ['(', '[', '0', '-', '9', ']', '*', ')']

/-- Python `str.replace`: replace every occurrence of `pat` (nonempty)
left to right.  Fuel makes the recursion structural. -/
def replaceAllF (pat rep : List Char) : Nat → List Char → List Char
  | 0, cs => cs
  | fuel + 1, cs =>
      if pat ≠ [] ∧ List.isPrefixOf pat cs then
        rep ++ replaceAllF pat rep fuel (cs.drop pat.length)
      else
        match cs with
        | [] => []
        | x :: xs => x :: replaceAllF pat rep fuel xs

/-- Python `cs.replace(pat, rep)`. -/
def replaceAll (cs pat rep : List Char) : List Char :=
  replaceAllF pat rep (cs.length + 1) cs

/-- A token of the compiled regex: a literal character or the digit
capturing group `([0-9]*)`. -/
inductive Tok where
  | lit (c : Char)
  | grp
deriving DecidableEq, Repr

/-- Tokenize the regex source: occurrences of `([0-9]*)` become group
tokens, everything else is literal. -/
def tokenizeF : Nat → List Char → List Tok
  | 0, _ => []
  | fuel + 1, cs =>
      if List.isPrefixOf groupCs cs then Tok.grp :: tokenizeF fuel (cs.drop 8)
      else
        match cs with
        | [] => []
        | x :: xs => Tok.lit x :: tokenizeF fuel xs

/-- Tokenize a compiled regex string. -/
def tokenize (cs : List Char) : List Tok :=
  tokenizeF (cs.length + 1) cs

/-- Anchored match of a literal/digit-group regex against a string, with
Python's leftmost-greedy backtracking (each group prefers the longest
digit run).  Returns the list of captured groups on success. -/
def matchToks : List Tok → List Char → Option (List (List Char))
  | [], [] => some []
  | [], _ :: _ => none
  | .lit _ :: _, [] => none
  | .lit c :: ts, x :: xs => if x = c then matchToks ts xs else none
  | .grp :: ts, s =>
      ((List.range ((s.takeWhile Char.isDigit).length + 1)).reverse.map
        (fun k => (matchToks ts (s.drop k)).map (fun gs => s.take k :: gs))).findSome? id

/-! ### `ensureCountedPath` -/

/-- Children of `parent` (files and directories), as `Path.iterdir`. -/
def childrenOf (fs : FS) (parent : FPath) : List FPath :=
  (fs.files ++ fs.dirs).filter
    (fun e => decide (e.length = parent.length + 1) && decide (parent <+: e))

/-- Maximum of a list of counts (`max` of a nonempty Python list). -/
def maxL (l : List Nat) : Nat := l.foldl Nat.max 0

/-- The counts extracted by the scan of `ensureCountedPath`: children of
the parent with the same suffix whose stem matches
`stem + fmt.replace(pattern, "([0-9]*)") + "$"`; group 1 of each match,
nonempty groups parsed as integers. -/
def scanCounts (fs : FS) (path : FPath) (fmt ph : List Char) : List Nat :=
  let parent := parentP path
  let stem := (stemSuffix (lastName path)).1
  let sfx := (stemSuffix (lastName path)).2
  let fmtRegex := replaceAll fmt ph groupCs
  let toks := tokenize (stem.toList ++ fmtRegex)
  let cands := (childrenOf fs parent).filter
    (fun e => decide ((stemSuffix (lastName e)).2 = sfx))
  let groups := cands.filterMap
    (fun e => (matchToks toks (stemSuffix (lastName e)).1.toList).bind (fun gs => gs.head?))
  (groups.filter (fun g => decide (g ≠ []))).map natOfDigits

/-- Result of `_constructPath`: the built path, or a formatting error
raised by `fmt % count`. -/
inductive CPRes where
  | err
  | ok (p : FPath)
deriving DecidableEq, Repr

/-- Python `_constructPath(path, fmt, count)` (closure over `skipFirst`
and `minCount`): decide the effective count, then substitute it into the
format and splice the result between stem and suffix. -/
def constructPath (fs : FS) (path : FPath) (fmt : List Char) (skipFirst : Bool)
    (minCount : Nat) (count : Option Nat) : CPRes :=
  let c1 : Option Nat :=
    if existsP fs path ∧ count = none ∧ skipFirst then some minCount else count
  let c2 : Option Nat :=
    match c1 with
    | none => if skipFirst then none else some minCount
    | some c => some c
  match c2 with
  | none => .ok path
  | some c =>
      match pyFormat fmt c with
      | none => .err
      | some mid =>
          .ok (parentP path ++
            [(stemSuffix (lastName path)).1 ++ String.mk mid ++ (stemSuffix (lastName path)).2])

/-- Result of `ensureCountedPath`: the ensured path, or one of the raised
exceptions (invalid format specifier `ValueError`, a `%`-formatting
error, the failed defensive `assert` on an argument or on the final
existence check). -/
inductive ECRes where
  | invalidFormat
  | formatError
  | assertFail
  | ok (p : FPath)
deriving DecidableEq, Repr

/-- Scanning core of `ensureCountedPath` (the part after validation,
`ensureDir` and the `disable` short-circuit): without an existing parent
construct from a `None` count, otherwise scan, derive the next count, and
defensively assert that the built path does not exist. -/
def ecpCore (fs1 : FS) (path : FPath) (fmt ph : List Char) (skipFirst : Bool)
    (minCount step : Nat) : ECRes :=
  if ¬ existsP fs1 (parentP path) then
    match constructPath fs1 path fmt skipFirst minCount none with
    | .err => .formatError
    | .ok p => .ok p
  else
    match constructPath fs1 path fmt skipFirst minCount
        (if scanCounts fs1 path fmt ph = [] then none
         else some (maxL (scanCounts fs1 path fmt ph) + step)) with
    | .err => .formatError
    | .ok p => if existsP fs1 p then .assertFail else .ok p

/-- Python `ensureCountedPath(path, fmt, skipFirst, minCount, step,
ensureParent, disable)`.  Returns the result together with the filesystem
(mutated only by the optional `ensureDir` of the parent). -/
def ensureCountedPath (fs : FS) (path : FPath) (fmt : List Char) (skipFirst : Bool)
    (minCount step : Nat) (ensureParent disable : Bool) : ECRes × FS :=
  if step = 0 then (.assertFail, fs)
  else
    match findPhLast fmt with
    | none => (.invalidFormat, fs)
    | some (_, ph, _) =>
        let fs1 := if ensureParent then ensureDir fs (parentP path) else fs
        if disable then (.ok path, fs1)
        else (ecpCore fs1 path fmt ph skipFirst minCount step, fs1)

/-! ### Single-item transfer (`copySingleFile`) -/

/-- The copy cache: a set of `(src, dst)` pairs, owned by the caller;
`none` embeds Python `None`. -/
abbrev Cache := List (FPath × FPath)

/-- The `count` argument of `copySingleFile`: `False`, `True`, or the
string `"skipFirst"`. -/
inductive CMode where
  | off
  | on
  | skipF
deriving DecidableEq, Repr

/-- Exceptions the copy engine can raise. -/
inductive PyErr where
  | nameErr
  | valueErr
  | fileExistsErr
  | fmtErr
  | assertErr
deriving DecidableEq, Repr

/-- Result of `copySingleFile`: Python `False`, the destination path on
success (performed or cached), or a raised exception. -/
inductive SFRes where
  | failed
  | okDst (p : FPath)
  | raised (e : PyErr)
deriving DecidableEq, Repr

/-- Python `shutil.copy2(src, dst)` at path level: `dst` becomes a file. -/
def copyfileM (fs : FS) (dst : FPath) : FS :=
  if dst ∈ fs.files then fs else { fs with files := fs.files ++ [dst] }

/-- Python `shutil.copytree(src, dst)`: fails (`FileExistsError`) when
`dst` exists, otherwise creates `dst` and replicates the whole subtree of
`src` below it. -/
def copytreeM (fs : FS) (s d : FPath) : Option FS :=
  if existsP fs d then none
  else
    some { files := fs.files ++ (descFiles fs s).map (fun q => d ++ q.drop s.length),
           dirs := fs.dirs ++ [d] ++ (descDirs fs s).map (fun q => d ++ q.drop s.length) }

/-- Python `shutil.move(src, dst)`: relocate a file or subtree; when the
destination is an existing directory the source is moved into it. -/
def movePathM (fs : FS) (s d : FPath) : FS :=
  let t := if d ∈ fs.dirs then d ++ [lastName s] else d
  let remap := fun (q : FPath) => if s <+: q then t ++ q.drop s.length else q
  { files := fs.files.map remap, dirs := fs.dirs.map remap }

/-- Cache short-circuit test `cache and (src, dst) in cache`. -/
def cacheHit (cache : Option Cache) (s d : FPath) : Bool :=
  match cache with
  | none => false
  | some c => !c.isEmpty && decide ((s, d) ∈ c)

/-- Record a successful transfer in the cache, when one was supplied. -/
def cacheAdd (cache : Option Cache) (s d : FPath) : Option Cache :=
  match cache with
  | none => none
  | some c => some (if (s, d) ∈ c then c else c ++ [(s, d)])

/-- Tail of `copySingleFile` after the transfer: post-check that the
destination exists, then record the pair in the cache. -/
def sfFinish (fs2 : FS) (cache : Option Cache) (s d : FPath) : SFRes × FS × Option Cache :=
  if ¬ existsP fs2 d then (.failed, fs2, cache)
  else (.okDst d, fs2, cacheAdd cache s d)

/-- Python `copySingleFile(src, dst, force, move, count, cache)`.
Returns the result, the filesystem and the cache (the latter two as
mutated).  Fidelity notes: the `count` substitution calls
`ensureCountedPath(dst, ensureParent=False, skipFirst=(count=="skipFirst"))`
with the default format `-%03d`; the `src.is_dir`/`src.is_file` branch is
taken on the live filesystem, i.e. after the parent `mkdir`. -/
def copySingleFile (fs : FS) (cache : Option Cache) (src dst0 : FPath)
    (force move : Bool) (count : CMode) : SFRes × FS × Option Cache :=
  let ec : ECRes :=
    match count with
    | .off => .ok dst0
    | .on => (ensureCountedPath fs dst0 ("-%03d".toList) false 1 1 false false).1
    | .skipF => (ensureCountedPath fs dst0 ("-%03d".toList) true 1 1 false false).1
  match ec with
  | .invalidFormat => (.raised .valueErr, fs, cache)
  | .formatError => (.raised .fmtErr, fs, cache)
  | .assertFail => (.raised .assertErr, fs, cache)
  | .ok dst =>
      if ¬ existsP fs src then (.failed, fs, cache)
      else if ¬ force ∧ cacheHit cache src dst then (.okDst dst, fs, cache)
      else
        let fs1 := if parentP dst ∈ fs.dirs then fs else mkdirParents fs (parentP dst)
        if existsP fs1 dst ∧ ¬ force then (.failed, fs1, cache)
        else if move then sfFinish (movePathM fs1 src dst) cache src dst
        else if src ∈ fs1.dirs then
          match copytreeM fs1 src dst with
          | none => (.raised .fileExistsErr, fs1, cache)
          | some fs2 => sfFinish fs2 cache src dst
        else if src ∈ fs1.files then sfFinish (copyfileM fs1 dst) cache src dst
        else (.raised .valueErr, fs1, cache)

/-! ### `copyMultipleFiles` -/

/-- The `dsts` argument of `copyMultipleFiles`: a target directory (any
non-list value) or an explicit list of destinations. -/
inductive DstSpec where
  | dir (d : FPath)
  | list (ds : List FPath)
deriving DecidableEq, Repr

/-- Result of `copyMultipleFiles`: the collected per-item results, or a
raised exception. -/
inductive MRes where
  | raised (e : PyErr)
  | done (rets : List SFRes)
deriving DecidableEq, Repr

/-- The `(src, dst)` pairs iterated by `copyMultipleFiles`: when `dsts`
is not a list, each source is sent to `dsts / src.name`; otherwise
`zip(srcs, dsts)`. -/
def cmfPairs (srcs : List FPath) (dsts : DstSpec) : List (FPath × FPath) :=
  match dsts with
  | .dir d => srcs.map (fun s => (s, d ++ [lastName s]))
  | .list ds => srcs.zip ds

/-- The loop of `copyMultipleFiles`.  After every `copySingleFile` the
code runs `progress.update(i+1)` unconditionally, but `progress` is only
bound inside the `if showProgress` branch: with `showProgress` false the
first update raises `NameError` (an `UnboundLocalError`). -/
def cmfLoop (force move : Bool) (count : CMode) (showProgress : Bool) :
    List (FPath × FPath) → FS → Option Cache → List SFRes → MRes × FS × Option Cache
  | [], fs, c, acc => (.done acc.reverse, fs, c)
  | (s, d) :: rest, fs, c, acc =>
      match copySingleFile fs c s d force move count with
      | (.raised e, fs1, c1) => (.raised e, fs1, c1)
      | (r, fs1, c1) =>
          if showProgress then cmfLoop force move count showProgress rest fs1 c1 (r :: acc)
          else (.raised .nameErr, fs1, c1)

/-- Python `copyMultipleFiles(srcs, dsts, force, move, count, cache,
showProgress)`. -/
def copyMultipleFiles (fs : FS) (srcs : List FPath) (dsts : DstSpec)
    (force move : Bool) (count : CMode) (cache : Option Cache)
    (showProgress : Bool) : MRes × FS × Option Cache :=
  cmfLoop force move count showProgress (cmfPairs srcs dsts) fs cache []

/-! ### The copy planner (`_collectContent`, `_expandSubdirs`) -/

/-- Association list with Python `dict` semantics, keyed by source path. -/
abbrev AList := List (FPath × FPath)

/-- Python `d[k] = v`: replace the value in place when the key exists,
append otherwise. -/
def dinsert (m : AList) (k v : FPath) : AList :=
  if m.any (fun kv => kv.1 = k) then
    m.map (fun kv => if kv.1 = k then (k, v) else kv)
  else m ++ [(k, v)]

/-- A glob selector: the `None`/empty sentinel (the source root itself),
or the oracle list of paths `src.glob(g)` returned. -/
inductive Selector where
  | root
  | matches (ps : List FPath)
deriving DecidableEq, Repr

/-- Candidate paths contributed by one selector. -/
def candsOf (src : FPath) : Selector → List FPath
  | .root => [src]
  | .matches ps => ps

/-- The per-candidate body of `_collectContent`: skip candidates in the
destination subtree when `dst` lies inside `src`, compute the destination
(relative layout preserves the path below `src`, flat layout keeps only
the name), and file the pair under `dirs` or `files`. -/
def collectStep (fs : FS) (src dst : FPath) (relative dstInSrc : Bool)
    (acc : AList × AList) (p : FPath) : AList × AList :=
  if dstInSrc ∧ dst <+: p then acc
  else
    let dstpath := if relative then dst ++ p.drop src.length else dst ++ [lastName p]
    if p ∈ fs.dirs then (acc.1, dinsert acc.2 p dstpath)
    else if p ∈ fs.files then (dinsert acc.1 p dstpath, acc.2)
    else acc

/-- Python `_collectContent(src, dst, globExp)`: union of the selector
candidate sets, returned as the `(files, dirs)` maps. -/
def collectContent (fs : FS) (src dst : FPath) (sels : List Selector)
    (relative : Bool) : AList × AList :=
  let dstInSrc := src <+: dst ∧ src ≠ dst
  sels.foldl
    (fun acc g => (candsOf src g).foldl
      (fun a p => collectStep fs src dst relative (decide dstInSrc) a p) acc)
    ([], [])

/-- Expansion of a single mapped directory: the files and directories of
its subtree are added to the maps, destinations computed below the
directory's own mapped destination. -/
def expandOne (fs : FS) (acc : AList × AList) (sd dd : FPath) : AList × AList :=
  let fRel := (descFiles fs sd).map (fun q => q.drop sd.length)
  let dRel := (descDirs fs sd).map (fun q => q.drop sd.length)
  (fRel.foldl (fun m r => dinsert m (sd ++ r) (dd ++ r)) acc.1,
   dRel.foldl (fun m r => dinsert m (sd ++ r) (dd ++ r)) acc.2)

/-- Python `_expandSubdirs(files, dirs)`: walk every directory of the
(pre-loop snapshot of the) `dirs` map and add its full subtree to both
maps. -/
def expandSubdirs (fs : FS) (files dirs : AList) : AList × AList :=
  dirs.foldl (fun acc kv => expandOne fs acc kv.1 kv.2) (files, dirs)

/-! ### The rename gate -/

/-- A caller-supplied rename hook, uniformly binary (`f(src, dst)`;
the unary shape ignores its first argument). -/
abbrev RFun := FPath → FPath → FPath

/-- Result of the adapted rename wrapper: the new destination, or the
out-of-tree `ValueError` carrying the input path, the output path and the
destination root. -/
inductive RnRes where
  | err (pIn pOut root : FPath)
  | ok (p : FPath)
deriving DecidableEq, Repr

/-- Python `_renameFunExtended` (the wrapper built by `_verifyRenameFun`):
call the hook, then require `dst in fileDstNew.parents`, i.e. the
destination root must be a strict ancestor of the returned path. -/
def renameFunExtended (dstRoot : FPath) (f : RFun) (fileSrc fileDst : FPath) : RnRes :=
  let d' := f fileSrc fileDst
  if dstRoot <+: d' ∧ dstRoot ≠ d' then .ok d' else .err fileDst d' dstRoot

/-- Outcome of renaming the whole files map. -/
inductive RAll where
  | err (pIn pOut root : FPath)
  | ok (l : AList)
deriving DecidableEq, Repr

/-- Apply the adapted rename wrapper to every `(src, dst)` pair of the
files map in order; the first out-of-tree result aborts. -/
def renameAll (dstRoot : FPath) (f : RFun) : AList → RAll
  | [] => .ok []
  | (k, v) :: rest =>
      match renameFunExtended dstRoot f k v with
      | .err a b c => .err a b c
      | .ok v' =>
          match renameAll dstRoot f rest with
          | .err a b c => .err a b c
          | .ok l => .ok ((k, v') :: l)

/-- Python `{k.parent: v.parent for k, v in files.items()}`. -/
def parentsMap (l : AList) : AList :=
  l.foldl (fun m kv => dinsert m (parentP kv.1) (parentP kv.2)) []

/-! ### The executor and `copyFiles` -/

/-- Lexicographic comparison of paths, as Python compares `Path` objects
component-wise. -/
def pathLt : FPath → FPath → Bool
  | [], [] => false
  | [], _ :: _ => true
  | _ :: _, [] => false
  | a :: as, b :: bs => if a = b then pathLt as bs else decide (a < b)

/-- Comparison of `(src, dst)` pairs, as Python `sorted` on tuples. -/
def pairLe (x y : FPath × FPath) : Bool :=
  pathLt x.1 y.1 || (decide (x.1 = y.1) && (pathLt x.2 y.2 || decide (x.2 = y.2)))

/-- Insert into a list sorted by `le`. -/
def insSorted (le : FPath × FPath → FPath × FPath → Bool) (x : FPath × FPath) :
    List (FPath × FPath) → List (FPath × FPath)
  | [] => [x]
  | y :: ys => if le x y then x :: y :: ys else y :: insSorted le x ys

/-- Python `sorted` (insertion sort; only the ordering matters). -/
def sortPairs (l : List (FPath × FPath)) : List (FPath × FPath) :=
  l.foldr (insSorted pairLe) []

/-- The loop of `_copyFiles`: run `copySingleFile` (no cache) over the
chosen data, threading the filesystem; per-item failures are ignored, a
raised exception aborts the loop. -/
def runCopies (force move : Bool) (count : CMode) :
    List (FPath × FPath) → FS → Option PyErr × FS
  | [], fs => (none, fs)
  | (s, d) :: rest, fs =>
      match copySingleFile fs none s d force move count with
      | (.raised e, fs1, _) => (some e, fs1)
      | (_, fs1, _) => runCopies force move count rest fs1

/-- Result of `copyFiles`: the `(files, dirs)` maps, the out-of-tree
rename `ValueError`, or an exception raised during execution. -/
inductive CFRes where
  | outOfTree (pIn pOut root : FPath)
  | raised (e : PyErr)
  | ok (files dirs : AList)
deriving DecidableEq, Repr

/-- The planning stage of `copyFiles`: collect, expand, then apply the
rename gate (`_renameFiles`).  Yields the `(files, dirs)` maps the call
returns, or the out-of-tree rename error.  Without a hook the maps are
the expanded data; with a hook the files map is renamed and the dirs map
is rebuilt from the parents of the renamed files. -/
def cfMaps (fs : FS) (src dst : FPath) (globExp : List Selector)
    (relative : Bool) (renameFun : Option RFun) : RAll × AList :=
  let col := collectContent fs src dst globExp relative
  let ex := expandSubdirs fs col.1 col.2
  match renameFun with
  | none => (.ok ex.1, ex.2)
  | some f =>
      match renameAll dst f ex.1 with
      | .err a b c => (.err a b c, [])
      | .ok l => (.ok l, parentsMap l)

/-- Python `copyFiles(src, dst, relative, globExp, force, move, listOnly,
renameFun, counted)`.  Plan, expand, rename, then either return the maps
(dry run) or execute: the fast path (no rename hook) copies the sorted
pre-expansion data — whole subtrees — while the slow path copies the
sorted expanded, renamed per-file data.  The second component is the
filesystem after the call, also when an exception is raised. -/
def copyFiles (fs : FS) (src dst : FPath) (globExp : List Selector)
    (relative force move listOnly : Bool) (renameFun : Option RFun)
    (counted : CMode) : CFRes × FS :=
  let col := collectContent fs src dst globExp relative
  match cfMaps fs src dst globExp relative renameFun with
  | (.err a b c, _) => (.outOfTree a b c, fs)
  | (.ok filesR, dirsR) =>
      if listOnly then (.ok filesR dirsR, fs)
      else
        let data :=
          if renameFun.isNone then sortPairs (col.1 ++ col.2) else sortPairs filesR
        match runCopies force move counted data fs with
        | (some e, fs1) => (.raised e, fs1)
        | (none, fs1) => (.ok filesR dirsR, fs1)

/-! ### Predicates for the fast/slow execution-path comparison

The equivalence theorem for the two executors of `copyFiles` (whole
subtrees from the pre-expansion data vs. per-file copies of the expanded
data) is stated over relative-layout plans on a well-formed filesystem
with a clean destination; the predicates below spell out these side
conditions. -/

/-- The destination a relative-layout plan assigns to the source path
`k`: `dst / k.relative_to(src)`. -/
def vOf (src dst k : FPath) : FPath := dst ++ k.drop src.length

/-- Keys of an association list. -/
def keysOf (m : AList) : List FPath := m.map Prod.fst

/-- A well-formed filesystem: no path is both a file and a directory, and
nothing lives strictly below a regular file. -/
def WFfs (fs : FS) : Prop :=
  (∀ p ∈ fs.files, p ∉ fs.dirs) ∧
  (∀ p ∈ fs.files, ∀ q, p <+: q → q ≠ p → q ∉ fs.files ∧ q ∉ fs.dirs)

/-- A clean destination: nothing exists at or below `dst`. -/
def CleanDst (fs : FS) (dst : FPath) : Prop :=
  ∀ p, dst <+: p → p ∉ fs.files ∧ p ∉ fs.dirs

/-- Source and destination roots do not contain one another. -/
def Sep (src dst : FPath) : Prop := ¬ src <+: dst ∧ ¬ dst <+: src

/-- A plan item of a relative-layout plan: the key lies below `src`, its
value is the relative-layout destination, and the key exists on `fs`. -/
def GoodItem (fs : FS) (src dst : FPath) (kv : FPath × FPath) : Prop :=
  src <+: kv.1 ∧ kv.2 = vOf src dst kv.1 ∧ (kv.1 ∈ fs.files ∨ kv.1 ∈ fs.dirs)

/-- Pairwise disjointness of plan items: no key contains another. -/
def DisjKeys (l : List (FPath × FPath)) : Prop :=
  List.Pairwise (fun a b => ¬ a.1 <+: b.1 ∧ ¬ b.1 <+: a.1) l

/-- A relative-layout plan item whose key is a file of `fs`. -/
def GoodFile (fs : FS) (src dst : FPath) (kv : FPath × FPath) : Prop :=
  src <+: kv.1 ∧ kv.2 = vOf src dst kv.1 ∧ kv.1 ∈ fs.files

/-- A relative-layout plan item whose key is a directory of `fs`. -/
def GoodDir (fs : FS) (src dst : FPath) (kv : FPath × FPath) : Prop :=
  src <+: kv.1 ∧ kv.2 = vOf src dst kv.1 ∧ kv.1 ∈ fs.dirs

/-- The files a single plan item deposits when executed on `fs`: the
item's destination for a file source, the mapped subtree files for a
directory source. -/
def contribP (fs : FS) (src dst : FPath) (kv : FPath × FPath) (p : FPath) : Prop :=
  (kv.1 ∈ fs.files ∧ p = kv.2) ∨
  (kv.1 ∈ fs.dirs ∧ ∃ q, q ∈ fs.files ∧ kv.1 <+: q ∧ q ≠ kv.1 ∧ p = vOf src dst q)

/-- The directories a prefix of the plan may have created: ancestors of a
processed destination (from `mkdir(parents=True)`), and for directory
items the destination itself with its mapped subtree directories (from
`copytree`). -/
def NewDirP (fs : FS) (src dst : FPath) (done : List (FPath × FPath)) (p : FPath) : Prop :=
  ∃ kv ∈ done,
    (p <+: kv.2 ∧ p ≠ kv.2 ∧ p ≠ []) ∨
    (kv.1 ∈ fs.dirs ∧
      (p = kv.2 ∨ ∃ q, q ∈ fs.dirs ∧ kv.1 <+: q ∧ q ≠ kv.1 ∧ p = vOf src dst q))

/-- Execution invariant after processing the items of `done` starting
from `fs`: the files are the original ones plus the contributions of the
processed items, and the new directories are bounded by `NewDirP`. -/
def ExecInv (fs : FS) (src dst : FPath) (done : List (FPath × FPath)) (S : FS) : Prop :=
  (∀ p, p ∈ S.files ↔ p ∈ fs.files ∨ ∃ kv ∈ done, contribP fs src dst kv p) ∧
  (∀ p ∈ fs.dirs, p ∈ S.dirs) ∧
  (∀ p ∈ S.dirs, p ∈ fs.dirs ∨ NewDirP fs src dst done p)

/-! ### Concrete instances used by counterexamples and witnesses -/

/-- Source tree `s/a/f` with no destination yet. -/
def fsC1ex : FS := ⟨[["s", "a", "f"]], [["s"], ["s", "a"]]⟩

/-- Witness filesystem for the counted-path postcondition. -/
def fsC2w : FS := ⟨[["d", "f.txt"]], [["d"]]⟩

/-- Source tree `s/f` for the rename-gate witness. -/
def fsC3ex : FS := ⟨[["s", "f"]], [["s"]]⟩

/-- A destination `s/a/out` nested inside the source `s`, already holding
a file from a previous run. -/
def fsC5ex : FS := ⟨[["s", "a", "out", "f"]], [["s"], ["s", "a"], ["s", "a", "out"]]⟩

/-- Witness filesystem for the self-copy exclusion. -/
def fsC5w : FS := ⟨[["s", "b"]], [["s"]]⟩

/-- A folder holding `f-001.txt`, so the scan of `f.txt` finds count 1. -/
def fsC6ex : FS := ⟨[["d", "f-001.txt"]], [["d"]]⟩

/-- A folder holding `f.txt`; `g.txt` does not exist. -/
def fsC7ex : FS := ⟨[["d", "f.txt"]], [["d"]]⟩

/-- An empty parent folder for the format-validation witness. -/
def fsC7w : FS := ⟨[], [["d"]]⟩

/-- Source file, cache entry, and an already-existing destination. -/
def fsC8w : FS := ⟨[["s", "x"], ["d", "x"]], [["s"], ["d"]]⟩

/-- One source file for the progress-bar bug. -/
def fsC10w : FS := ⟨[["a"]], []⟩

/-- A matched directory `s/a` containing only the empty directory
`s/a/e`. -/
def fsC4ex : FS := ⟨[], [["s"], ["s", "a"], ["s", "a", "e"]]⟩

/-- A matched directory `s/a` holding a file and a nested file. -/
def fsC4w : FS :=
  ⟨[["s", "a", "f1"], ["s", "a", "b", "f2"]], [["s"], ["s", "a"], ["s", "a", "b"]]⟩

/-! ## Theorems -/

theorem ensureDir_of_mem {fs : FS} {p : FPath} (h : p ∈ fs.dirs) : ensureDir fs p = fs := by
  unfold ensureDir
  rw [if_pos (Or.inr h)]

theorem mkdirParents_files (fs : FS) (p : FPath) : (mkdirParents fs p).files = fs.files := rfl

theorem mkdirParents_dirs_sub (fs : FS) (p : FPath) : ∀ q ∈ fs.dirs, q ∈ (mkdirParents fs p).dirs := by
  intro q hq
  unfold mkdirParents
  exact List.mem_append_left _ hq

theorem sfFinish_cases (fs2 : FS) (c : Option Cache) (s d : FPath) :
    (sfFinish fs2 c s d).1 = .failed ∨ (sfFinish fs2 c s d).1 = .okDst d := by
  unfold sfFinish
  split
  · exact Or.inl rfl
  · exact Or.inr rfl

/-- Key membership fact for Python dict insertion. -/
theorem dinsert_mem_or {m : AList} {k v : FPath} {kv : FPath × FPath}
    (h : kv ∈ dinsert m k v) : kv ∈ m ∨ kv = (k, v) := by
  unfold dinsert at h
  split at h
  · rcases List.mem_map.mp h with ⟨x, hx, hxe⟩
    by_cases hk : x.1 = k
    · right
      rw [if_pos hk] at hxe
      exact hxe.symm
    · left
      rw [if_neg hk] at hxe
      exact hxe ▸ hx
  · rcases List.mem_append.mp h with h1 | h1
    · exact Or.inl h1
    · right
      simpa using h1

/-- One step of `_collectContent` keeps destination-subtree keys out when
the guard is active. -/
theorem collectStep_no_dst (fs : FS) (src dst : FPath) (rel : Bool)
    (acc : AList × AList) (p : FPath)
    (h1 : ∀ kv ∈ acc.1, ¬ dst <+: kv.1) (h2 : ∀ kv ∈ acc.2, ¬ dst <+: kv.1) :
    (∀ kv ∈ (collectStep fs src dst rel true acc p).1, ¬ dst <+: kv.1) ∧
    (∀ kv ∈ (collectStep fs src dst rel true acc p).2, ¬ dst <+: kv.1) := by
  unfold collectStep
  by_cases hdp : dst <+: p
  · rw [if_pos ⟨rfl, hdp⟩]
    exact ⟨h1, h2⟩
  · rw [if_neg (by simp [hdp])]
    dsimp only
    split
    · refine ⟨h1, fun kv hkv => ?_⟩
      rcases dinsert_mem_or hkv with h | h
      · exact h2 kv h
      · rw [h]
        exact hdp
    · split
      · refine ⟨fun kv hkv => ?_, h2⟩
        rcases dinsert_mem_or hkv with h | h
        · exact h1 kv h
        · rw [h]
          exact hdp
      · exact ⟨h1, h2⟩

/-- Fold of `collectStep` over a candidate list keeps the invariant. -/
theorem collectFold_no_dst (fs : FS) (src dst : FPath) (rel : Bool)
    (ps : List FPath) (acc : AList × AList)
    (h1 : ∀ kv ∈ acc.1, ¬ dst <+: kv.1) (h2 : ∀ kv ∈ acc.2, ¬ dst <+: kv.1) :
    (∀ kv ∈ (ps.foldl (fun a p => collectStep fs src dst rel true a p) acc).1, ¬ dst <+: kv.1) ∧
    (∀ kv ∈ (ps.foldl (fun a p => collectStep fs src dst rel true a p) acc).2, ¬ dst <+: kv.1) := by
  induction ps generalizing acc with
  | nil => exact ⟨h1, h2⟩
  | cons p ps ih =>
    simp only [List.foldl_cons]
    have hstep := collectStep_no_dst fs src dst rel acc p h1 h2
    exact ih _ hstep.1 hstep.2

/-- Fold over the selector list keeps the invariant. -/
theorem collectSels_no_dst (fs : FS) (src dst : FPath) (rel : Bool)
    (sels : List Selector) (acc : AList × AList)
    (h1 : ∀ kv ∈ acc.1, ¬ dst <+: kv.1) (h2 : ∀ kv ∈ acc.2, ¬ dst <+: kv.1) :
    (∀ kv ∈ (sels.foldl
        (fun a g => (candsOf src g).foldl (fun a p => collectStep fs src dst rel true a p) a)
        acc).1, ¬ dst <+: kv.1) ∧
    (∀ kv ∈ (sels.foldl
        (fun a g => (candsOf src g).foldl (fun a p => collectStep fs src dst rel true a p) a)
        acc).2, ¬ dst <+: kv.1) := by
  induction sels generalizing acc with
  | nil => exact ⟨h1, h2⟩
  | cons g gs ih =>
    simp only [List.foldl_cons]
    have hstep := collectFold_no_dst fs src dst rel (candsOf src g) acc h1 h2
    exact ih _ hstep.1 hstep.2

/-- A `copySingleFile` call with `count=False` and `force=False` never
raises: it fails or returns the destination. -/
theorem copySingleFile_off_no_raise (fs : FS) (c : Option Cache) (s d : FPath)
    (move : Bool) :
    (copySingleFile fs c s d false move .off).1 = .failed ∨
    (copySingleFile fs c s d false move .off).1 = .okDst d := by
  unfold copySingleFile
  dsimp only
  by_cases hs : existsP fs s = true
  case neg =>
    rw [if_pos hs]
    exact Or.inl rfl
  case pos =>
    rw [if_neg (by simpa using hs)]
    by_cases hch : (¬ false = true ∧ cacheHit c s d = true)
    · rw [if_pos hch]
      exact Or.inr rfl
    · rw [if_neg hch]
      set fs1 := if parentP d ∈ fs.dirs then fs else mkdirParents fs (parentP d) with hfs1
      have hfiles : fs1.files = fs.files := by
        rw [hfs1]
        split
        · rfl
        · exact mkdirParents_files fs (parentP d)
      have hdirs : ∀ q ∈ fs.dirs, q ∈ fs1.dirs := by
        intro q hq
        rw [hfs1]
        split
        · exact hq
        · exact mkdirParents_dirs_sub fs (parentP d) q hq
      by_cases hd : existsP fs1 d = true
      · rw [if_pos ⟨hd, by simp⟩]
        exact Or.inl rfl
      · rw [if_neg (fun hc => hd hc.1)]
        by_cases hm : move = true
        · rw [if_pos hm]
          exact sfFinish_cases _ c s d
        · rw [if_neg hm]
          by_cases hsd : s ∈ fs1.dirs
          · rw [if_pos hsd]
            unfold copytreeM
            rw [if_neg hd]
            exact sfFinish_cases _ c s d
          · rw [if_neg hsd]
            by_cases hsf : s ∈ fs1.files
            · rw [if_pos hsf]
              exact sfFinish_cases _ c s d
            · exfalso
              rcases Bool.or_eq_true_iff.mp hs with h | h
              · exact hsf (hfiles ▸ (of_decide_eq_true h))
              · exact hsd (hdirs s (of_decide_eq_true h))

/-- C9: with `listOnly=true` the call `copyFiles` performs no filesystem
mutation whatever the other settings: the filesystem it returns is the
one it was given.  All planning reads (`glob`, directory listing) and the
rename validation happen before any transfer, and the dry-run branch
returns before `_copyFiles` is reached. -/
theorem claimC9_dry_run_no_mutation (fs : FS) (src dst : FPath) (g : List Selector)
    (rel force move : Bool) (rf : Option RFun) (cnt : CMode) :
    (copyFiles fs src dst g rel force move true rf cnt).2 = fs := by
  unfold copyFiles
  cases hm : cfMaps fs src dst g rel rf with
  | mk r dirsR => cases r <;> simp

/-- C1 (amended): the `(files, dirs)` maps returned by a successful
`listOnly=false` run are exactly the maps the `listOnly=true` run returns
on the same inputs — the plan does not depend on the mode.  (The second
half of the original claim, that these maps equal the set of entries a
real run creates on a clean destination, fails: see the counterexample —
intermediate parent directories are created without appearing in the dirs
map.) -/
theorem claimC1_amended (fs : FS) (src dst : FPath) (g : List Selector)
    (rel force move : Bool) (rf : Option RFun) (cnt : CMode) (f d : AList)
    (h : (copyFiles fs src dst g rel force move false rf cnt).1 = .ok f d) :
    (copyFiles fs src dst g rel force move true rf cnt).1 = .ok f d := by
  unfold copyFiles at h ⊢
  cases hm : cfMaps fs src dst g rel rf with
  | mk r dirsR =>
    rw [hm] at h
    cases r with
    | err a b c => simp at h
    | ok filesR =>
      simp only [if_neg (by simp : ¬ false = true)] at h
      split at h
      · simp at h
      · simp_all

/-- C1 (counterexample): selecting the single file `s/a/f` with
`relative=true` yields a dirs map that is empty, but the `listOnly=false`
run on the clean destination `d` creates the directories `d` and `d/a`
(by `mkdir(parents=True)`): the maps do not equal the set of created
entries. -/
theorem claimC1_counterexample :
    (copyFiles fsC1ex ["s"] ["d"] [.matches [["s", "a", "f"]]] true false false true none .off).1 =
      .ok [(["s", "a", "f"], ["d", "a", "f"])] [] ∧
    (copyFiles fsC1ex ["s"] ["d"] [.matches [["s", "a", "f"]]] true false false false none .off).2.dirs =
      [["s"], ["s", "a"], ["d"], ["d", "a"]] ∧
    (["d", "a"] : FPath) ∉ fsC1ex.dirs := by
  refine ⟨by decide, by decide, by decide⟩

/-- C1 (witness): the amended theorem applied to the concrete single-file
plan. -/
theorem claimC1_witness :
    (copyFiles fsC1ex ["s"] ["d"] [.matches [["s", "a", "f"]]] true false false true none .off).1 =
      .ok [(["s", "a", "f"], ["d", "a", "f"])] [] :=
  claimC1_amended fsC1ex ["s"] ["d"] [.matches [["s", "a", "f"]]] true false false none .off
    [(["s", "a", "f"], ["d", "a", "f"])] [] (by decide)

/-- C2: whenever the parent directory of `path` exists and counting is not
disabled, a path returned by `ensureCountedPath` does not exist on the
filesystem at the time of return (the function's defensive final check
guarantees the postcondition on every returning branch of this case). -/
theorem claimC2_collision_freedom (fs : FS) (path : FPath) (fmt : List Char) (sf : Bool)
    (mc st : Nat) (ep : Bool) (p : FPath)
    (hp : parentP path ∈ fs.dirs)
    (h : (ensureCountedPath fs path fmt sf mc st ep false).1 = .ok p) :
    existsP (ensureCountedPath fs path fmt sf mc st ep false).2 p = false := by
  unfold ensureCountedPath at h ⊢
  by_cases hst : st = 0
  · rw [if_pos hst] at h
    simp at h
  · rw [if_neg hst] at h ⊢
    cases hph : findPhLast fmt with
    | none =>
      rw [hph] at h
      simp at h
    | some pr =>
      obtain ⟨pre, rest⟩ := pr
      obtain ⟨ph, post⟩ := rest
      rw [hph] at h
      have hfalse : ((false = true)) = False := by simp
      dsimp only at h ⊢
      simp only [hfalse, if_false] at h ⊢
      have hfs1 : (if ep = true then ensureDir fs (parentP path) else fs) = fs := by
        cases ep
        · simp
        · simpa using ensureDir_of_mem hp
      rw [hfs1] at h ⊢
      unfold ecpCore at h
      have hpe : existsP fs (parentP path) = true := by
        unfold existsP
        simp [hp]
      rw [if_neg (by simp [hpe])] at h
      split at h
      · simp at h
      · split at h
        · simp at h
        · simp_all

/-- C2 (witness): with `d/f.txt` present, `ensureCountedPath` returns
`d/f-001.txt`, which indeed does not exist. -/
theorem claimC2_witness :
    existsP (ensureCountedPath fsC2w ["d", "f.txt"] ("-%03d".toList) false 1 1 false false).2
      ["d", "f-001.txt"] = false :=
  claimC2_collision_freedom fsC2w ["d", "f.txt"] ("-%03d".toList) false 1 1 false
    ["d", "f-001.txt"] (by decide) (by decide)

/-- C3 (counterexample): a rename hook returning a path *equal to* the
destination root is rejected: `dst in fileDstNew.parents` holds only for
strict ancestors, so the wrapper raises the out-of-tree error although
the claim says an equal path is accepted. -/
theorem claimC3_counterexample :
    renameFunExtended ["d"] (fun _ _ => ["d"]) ["s", "f"] ["d", "f"] =
      .err ["d", "f"] ["d"] ["d"] := by
  decide

/-- C3 (amended): the adapted rename wrapper accepts a returned path that
is *strictly* nested under the destination root and otherwise raises the
out-of-tree-rename error naming the input path, the output path and the
destination root — including when the returned path equals the root.
The check runs in the renaming pass before any transfer: whenever
`copyFiles` ends with the out-of-tree error, the filesystem is returned
unchanged. -/
theorem claimC3_amended (dstRoot : FPath) (f : RFun) (s d : FPath) (fs : FS)
    (src dst : FPath) (g : List Selector) (rel force move lo : Bool) (cnt : CMode)
    (a b c : FPath) :
    (dstRoot <+: f s d ∧ dstRoot ≠ f s d →
        renameFunExtended dstRoot f s d = .ok (f s d)) ∧
    (¬ (dstRoot <+: f s d ∧ dstRoot ≠ f s d) →
        renameFunExtended dstRoot f s d = .err d (f s d) dstRoot) ∧
    ((copyFiles fs src dst g rel force move lo (some f) cnt).1 = .outOfTree a b c →
        (copyFiles fs src dst g rel force move lo (some f) cnt).2 = fs) := by
  refine ⟨?_, ?_, ?_⟩
  · intro h
    unfold renameFunExtended
    rw [if_pos h]
  · intro h
    unfold renameFunExtended
    rw [if_neg h]
  · intro h
    unfold copyFiles at h ⊢
    cases hm : cfMaps fs src dst g rel (some f) with
    | mk r dirsR =>
      cases r with
      | err x y z => rfl
      | ok l =>
        rw [hm] at h
        dsimp only at h ⊢
        by_cases hlo : lo = true
        · rw [if_pos hlo] at h
          simp at h
        · rw [if_neg hlo] at h
          split at h
          · simp at h
          · simp at h

/-- C3 (witness): the amended theorem applied to concrete hooks: a hook
staying strictly inside `d` is accepted, the hook returning `d` itself is
rejected, and a `copyFiles` call aborted by the out-of-tree error leaves
the filesystem unchanged. -/
theorem claimC3_witness :
    renameFunExtended ["d"] (fun _ _ => ["d", "x"]) ["s", "f"] ["d", "f"] = .ok ["d", "x"] ∧
    renameFunExtended ["d"] (fun _ _ => ["e"]) ["s", "f"] ["d", "f"] =
      .err ["d", "f"] ["e"] ["d"] ∧
    (copyFiles fsC3ex ["s"] ["d"] [.root] true false false false
      (some (fun _ _ => ["e"])) .off).2 = fsC3ex := by
  refine ⟨?_, ?_, ?_⟩
  · exact (claimC3_amended ["d"] (fun _ _ => ["d", "x"]) ["s", "f"] ["d", "f"] fsC3ex
      ["s"] ["d"] [.root] true false false false .off [] [] []).1 (by decide)
  · exact (claimC3_amended ["d"] (fun _ _ => ["e"]) ["s", "f"] ["d", "f"] fsC3ex
      ["s"] ["d"] [.root] true false false false .off [] [] []).2.1 (by decide)
  · exact (claimC3_amended ["d"] (fun _ _ => ["e"]) ["s", "f"] ["d", "f"] fsC3ex
      ["s"] ["d"] [.root] true false false false .off
      ["d", "f"] ["e"] ["d"]).2.2 (by decide)

/-- C5 (counterexample): with `dst = s/a/out` nested inside `src = s` and
the directory `s/a` matched by a selector, subtree expansion walks `s/a`
and reintroduces `dst` itself and the file below it into the plan: the
returned maps contain keys equal to and under `dst`. -/
theorem claimC5_counterexample :
    (copyFiles fsC5ex ["s"] ["s", "a", "out"] [.matches [["s", "a"]]] true false false true
        none .off).1 =
      .ok [(["s", "a", "out", "f"], ["s", "a", "out", "a", "out", "f"])]
        [(["s", "a"], ["s", "a", "out", "a"]),
         (["s", "a", "out"], ["s", "a", "out", "a", "out"])] ∧
    (["s", "a", "out"] : FPath) <+: ["s", "a", "out"] ∧
    (["s", "a", "out"] : FPath) <+: ["s", "a", "out", "f"] := by
  refine ⟨by decide, by decide, by decide⟩

/-- C5 (amended): the self-copy guard holds for the *directly collected*
candidates: when `dst` is nested inside `src`, no key of the maps built
by `_collectContent` is equal to `dst` or under `dst`.  (The guarantee
does not survive `_expandSubdirs`: expanding a matched ancestor directory
of `dst` reintroduces the destination subtree, see the counterexample.) -/
theorem claimC5_amended (fs : FS) (src dst : FPath) (sels : List Selector)
    (rel : Bool) (k v : FPath)
    (h1 : src <+: dst) (h2 : src ≠ dst)
    (hk : (k, v) ∈ (collectContent fs src dst sels rel).1 ∨
          (k, v) ∈ (collectContent fs src dst sels rel).2) :
    ¬ dst <+: k := by
  unfold collectContent at hk
  have hb : decide (src <+: dst ∧ src ≠ dst) = true := decide_eq_true ⟨h1, h2⟩
  simp only [hb] at hk
  have hall := collectSels_no_dst fs src dst rel sels ([], []) (by simp) (by simp)
  rcases hk with hk | hk
  · exact hall.1 (k, v) hk
  · exact hall.2 (k, v) hk

/-- C5 (witness): the amended theorem applied to a concrete scan with the
destination nested in the source. -/
theorem claimC5_witness : ¬ (["s", "a"] : FPath) <+: ["s", "b"] :=
  claimC5_amended fsC5w ["s"] ["s", "a"] [.matches [["s", "b"]]] true
    ["s", "b"] ["s", "a", "b"] (by decide) (by decide) (Or.inl (by decide))

/-- C6 (counterexample): with `d/f-001.txt` on disk the scan finds count
1, so `nextCount = 2`; called with `minCount = 5` the function returns
`f-002.txt`, not the `max(nextCount, minCount) = 5` version the claim
requires. -/
theorem claimC6_counterexample :
    (ensureCountedPath fsC6ex ["d", "f.txt"] ("-%03d".toList) false 5 1 false false).1 =
      .ok ["d", "f-002.txt"] ∧
    (["d", "f-002.txt"] : FPath) ≠ ["d", "f-005.txt"] := by
  refine ⟨by decide, by decide⟩

/-- C6 (amended): when the scan finds at least one numeric match, the
returned path substitutes `nextCount = max(found) + step` itself into the
pattern; `minCount` is not consulted on this branch (no `max` with
`minCount` is taken). -/
theorem claimC6_amended (fs : FS) (path : FPath) (fmt pre ph post : List Char) (sf : Bool)
    (mc st : Nat) (q : FPath)
    (hph : findPhLast fmt = some (pre, ph, post))
    (hp : existsP fs (parentP path) = true)
    (hc : scanCounts fs path fmt ph ≠ [])
    (h : (ensureCountedPath fs path fmt sf mc st false false).1 = .ok q) :
    ∃ mid, pyFormat fmt (maxL (scanCounts fs path fmt ph) + st) = some mid ∧
      q = parentP path ++
        [(stemSuffix (lastName path)).1 ++ String.mk mid ++ (stemSuffix (lastName path)).2] := by
  unfold ensureCountedPath at h
  by_cases hst : st = 0
  · rw [if_pos hst] at h
    simp at h
  · rw [if_neg hst] at h
    rw [hph] at h
    have hfalse : ((false = true)) = False := by simp
    dsimp only at h
    simp only [hfalse, if_false] at h
    unfold ecpCore at h
    rw [if_neg (by simp [hp])] at h
    rw [if_neg hc] at h
    unfold constructPath at h
    dsimp only at h
    rw [if_neg (by simp :
      ¬ (existsP fs path = true ∧ some (maxL (scanCounts fs path fmt ph) + st) = none ∧
          sf = true))] at h
    dsimp only at h
    cases hf : pyFormat fmt (maxL (scanCounts fs path fmt ph) + st) with
    | none =>
      rw [hf] at h
      simp at h
    | some mid =>
      rw [hf] at h
      dsimp only at h
      split at h
      · simp at h
      · exact ⟨mid, rfl, by simpa using h.symm⟩

/-- C6 (witness): the amended theorem applied to the scan that finds
count 1 with `minCount = 5`: the result substitutes `2`. -/
theorem claimC6_witness :
    ∃ mid, pyFormat ("-%03d".toList) (maxL (scanCounts fsC6ex ["d", "f.txt"]
        ("-%03d".toList) ("%03d".toList)) + 1) = some mid ∧
      (["d", "f-002.txt"] : FPath) = parentP ["d", "f.txt"] ++
        [(stemSuffix (lastName ["d", "f.txt"])).1 ++ String.mk mid ++
          (stemSuffix (lastName ["d", "f.txt"])).2] :=
  claimC6_amended fsC6ex ["d", "f.txt"] ("-%03d".toList) ['-'] ("%03d".toList) [] false 5 1
    ["d", "f-002.txt"] (by decide) (by decide) (by decide) (by decide)

/-- C7 (counterexample): the format `%d%d` contains two integer
placeholders, yet `ensureCountedPath` raises no invalid-format error —
with `skipFirst=true` and no matching sibling it returns the path
unchanged. -/
theorem claimC7_counterexample :
    (ensureCountedPath fsC7ex ["d", "g.txt"] ("%d%d".toList) true 1 1 false false).1 =
      .ok ["d", "g.txt"] := by
  decide

/-- Helper: the scanning core never raises the invalid-format error (its
outcomes are the built path, a formatting error, or the failed assert). -/
theorem ecpCore_ne_invalid (fs1 : FS) (path : FPath) (fmt ph : List Char) (sf : Bool)
    (mc st : Nat) : ecpCore fs1 path fmt ph sf mc st ≠ .invalidFormat := by
  unfold ecpCore
  split
  · split <;> simp
  · split
    · simp
    · split <;> simp

/-- C7 (amended): `ensureCountedPath` raises the invalid-format
`ValueError` if and only if the format contains *no* integer placeholder
(`re.match(".*(%0?[0-9]*d).*", fmt)` fails); a format with two or more
placeholders passes validation.  The check precedes any filesystem
access: in the error case the filesystem is returned unchanged. -/
theorem claimC7_amended (fs : FS) (path : FPath) (fmt : List Char) (sf : Bool)
    (mc st : Nat) (ep dis : Bool) (hst : 0 < st) :
    (((ensureCountedPath fs path fmt sf mc st ep dis).1 = .invalidFormat) ↔
        findPhLast fmt = none) ∧
    (findPhLast fmt = none →
        (ensureCountedPath fs path fmt sf mc st ep dis).2 = fs) := by
  have hst' : ¬ st = 0 := by omega
  unfold ensureCountedPath
  rw [if_neg hst']
  cases hph : findPhLast fmt with
  | none => exact ⟨by simp, fun _ => rfl⟩
  | some pr =>
    obtain ⟨pre, rest⟩ := pr
    obtain ⟨ph, post⟩ := rest
    dsimp only
    refine ⟨⟨fun h => ?_, fun h => by simp at h⟩, fun h => by simp at h⟩
    by_cases hd : dis = true
    · rw [if_pos hd] at h
      simp at h
    · rw [if_neg hd] at h
      dsimp only at h
      exact absurd h (ecpCore_ne_invalid _ path fmt ph sf mc st)

/-- C7 (witness): the amended theorem applied to the placeholder-free
format `abc`: the invalid-format error is raised and the filesystem is
untouched. -/
theorem claimC7_witness :
    (ensureCountedPath fsC7w ["d", "f.txt"] ("abc".toList) false 1 1 false false).1 =
      .invalidFormat ∧
    (ensureCountedPath fsC7w ["d", "f.txt"] ("abc".toList) false 1 1 false false).2 = fsC7w :=
  ⟨(claimC7_amended fsC7w ["d", "f.txt"] ("abc".toList) false 1 1 false false
      (by decide)).1.mpr (by decide),
   (claimC7_amended fsC7w ["d", "f.txt"] ("abc".toList) false 1 1 false false
      (by decide)).2 (by decide)⟩

/-- C8 (counterexample): the cache short-circuit is *not* unconditional:
the missing-source check precedes it, so with `(src, dst)` in the cache
but `src` absent from the filesystem the call returns `False`, not
`dst`. -/
theorem claimC8_counterexample :
    copySingleFile ⟨[], []⟩ (some [(["s", "x"], ["d", "x"])]) ["s", "x"] ["d", "x"]
      false false .off =
      (.failed, ⟨[], []⟩, some [(["s", "x"], ["d", "x"])]) := by
  decide

/-- C8 (amended): for an *existing* source, if `force` is false and the
pair `(src, dst)` is in the supplied cache, `copySingleFile` returns
`dst` as a no-op success: the filesystem and the cache are returned
unchanged (in particular no directory is created and nothing is copied
or moved), even when `dst` already exists on disk. -/
theorem claimC8_amended (fs : FS) (c : Cache) (s d : FPath) (move : Bool)
    (hs : existsP fs s = true) (hc : (s, d) ∈ c) :
    copySingleFile fs (some c) s d false move .off = (.okDst d, fs, some c) := by
  unfold copySingleFile
  have hne : c ≠ [] := by
    rintro rfl
    exact absurd hc (by simp)
  simp [cacheHit, hs, hc, List.isEmpty_iff, hne]

/-- C8 (witness): the amended theorem applied with the destination
already existing on disk: still a pure no-op success. -/
theorem claimC8_witness :
    copySingleFile fsC8w (some [(["s", "x"], ["d", "x"])]) ["s", "x"] ["d", "x"]
      false false .off =
      (.okDst ["d", "x"], fsC8w, some [(["s", "x"], ["d", "x"])]) :=
  claimC8_amended fsC8w [(["s", "x"], ["d", "x"])] ["s", "x"] ["d", "x"] false
    (by decide) (by decide)

/-- C10 (counterexample): "at least one source" does not suffice: with a
nonempty `srcs` but an *empty destination list* the zip is empty, the
loop body never runs, and the call completes normally instead of raising
`NameError`. -/
theorem claimC10_counterexample :
    copyMultipleFiles fsC10w [["a"]] (.list []) false false .off none false =
      (.done [], fsC10w, none) := by
  decide

/-- C10 (amended): with `showProgress` false, at least one `(src, dst)`
pair after pairing, `force` false and counting off (so that the first
transfer itself cannot raise), `copyMultipleFiles` raises `NameError`
instead of completing: `progress` is only bound in the `if showProgress`
branch but `progress.update(i+1)` runs unconditionally after the first
copy. -/
theorem claimC10_amended (fs : FS) (srcs : List FPath) (dsts : DstSpec)
    (move : Bool) (cache : Option Cache)
    (hp : cmfPairs srcs dsts ≠ []) :
    (copyMultipleFiles fs srcs dsts false move .off cache false).1 = .raised .nameErr := by
  unfold copyMultipleFiles
  cases hps : cmfPairs srcs dsts with
  | nil => exact absurd hps hp
  | cons hd tl =>
    obtain ⟨s, d⟩ := hd
    unfold cmfLoop
    rcases copySingleFile_off_no_raise fs cache s d move with hr | hr
    all_goals cases hc : copySingleFile fs cache s d false move .off with
    | mk r rest =>
      rw [hc] at hr
      cases r <;> simp_all

/-- C10 (witness): the amended theorem applied to one source paired into
a destination directory. -/
theorem claimC10_witness :
    (copyMultipleFiles fsC10w [["a"]] (.dir ["d"]) false false .off none false).1 =
      .raised .nameErr :=
  claimC10_amended fsC10w [["a"]] (.dir ["d"]) false none (by decide)

/-! ### Path lemmas for the execution-path equivalence -/

theorem prefix_append_drop {a q : FPath} (h : a <+: q) : a ++ q.drop a.length = q := by
  obtain ⟨t, rfl⟩ := h
  rw [List.drop_left]

theorem vOf_starts (src dst k : FPath) : dst <+: vOf src dst k := List.prefix_append _ _

theorem vOf_inj {src a b : FPath} (dst : FPath) (ha : src <+: a) (hb : src <+: b)
    (h : vOf src dst a = vOf src dst b) : a = b := by
  unfold vOf at h
  have h2 : a.drop src.length = b.drop src.length := List.append_cancel_left h
  calc a = src ++ a.drop src.length := (prefix_append_drop ha).symm
    _ = src ++ b.drop src.length := by rw [h2]
    _ = b := prefix_append_drop hb

theorem vOf_comp {src s q : FPath} (dst : FPath) (h1 : src <+: s) (h2 : s <+: q) :
    vOf src dst s ++ q.drop s.length = vOf src dst q := by
  obtain ⟨t1, rfl⟩ := h1
  obtain ⟨t2, rfl⟩ := h2
  unfold vOf
  have e1 : ((src ++ t1) ++ t2).drop (src ++ t1).length = t2 := List.drop_left _ _
  have e2 : ((src ++ t1) ++ t2).drop src.length = t1 ++ t2 := by
    rw [List.append_assoc]
    exact List.drop_left _ _
  have e3 : (src ++ t1).drop src.length = t1 := List.drop_left _ _
  rw [e1, e2, e3, List.append_assoc]

theorem vOf_mono {src a b : FPath} (dst : FPath) (ha : src <+: a) (hb : src <+: b)
    (h : vOf src dst a <+: vOf src dst b) : a <+: b := by
  unfold vOf at h
  rw [List.prefix_append_right_inj] at h
  obtain ⟨t, ht⟩ := h
  rw [← prefix_append_drop ha, ← prefix_append_drop hb, ← ht, ← List.append_assoc]
  exact List.prefix_append _ _

/-- Under separated roots, a path below `src` cannot be below `dst`. -/
theorem sep_no_mix {src dst x : FPath} (hsep : Sep src dst)
    (hx : src <+: x) (hd : dst <+: x) : False := by
  rcases List.prefix_or_prefix_of_prefix hx hd with h | h
  · exact hsep.1 h
  · exact hsep.2 h

/-- Under separated roots, a path below `src` is never an ancestor of a
path below `dst`. -/
theorem sep_no_mix_anc {src dst x w : FPath} (hsep : Sep src dst)
    (hx : src <+: x) (hw : dst <+: w) (hxw : x <+: w) : False := by
  rcases List.prefix_or_prefix_of_prefix hxw hw with h | h
  · exact hsep.1 (hx.trans h)
  · exact sep_no_mix hsep hx h

/-! ### Directory-creation lemmas -/

theorem prefixList_mem {q w : FPath} : q ∈ prefixList w ↔ q <+: w ∧ q ≠ [] := by
  unfold prefixList
  constructor
  · intro h
    rcases List.mem_map.mp h with ⟨i, hi, rfl⟩
    refine ⟨List.take_prefix _ _, ?_⟩
    have : i < w.length := List.mem_range.mp hi
    have hlen : (w.take (i + 1)).length = i + 1 := by
      rw [List.length_take]
      omega
    intro he
    rw [he] at hlen
    simp at hlen
  · rintro ⟨hq, hne⟩
    refine List.mem_map.mpr ⟨q.length - 1, List.mem_range.mpr ?_, ?_⟩
    · have h1 := hq.length_le
      have h2 : 0 < q.length := List.length_pos.mpr hne
      omega
    · have h2 : 0 < q.length := List.length_pos.mpr hne
      have : q.length - 1 + 1 = q.length := by omega
      rw [this]
      obtain ⟨t, rfl⟩ := hq
      rw [List.take_left]

theorem mkdirParents_dirs_mem {S : FS} {w p : FPath} :
    p ∈ (mkdirParents S w).dirs ↔ p ∈ S.dirs ∨ p ∈ prefixList w := by
  unfold mkdirParents
  constructor
  · intro h
    rcases List.mem_append.mp h with h | h
    · exact Or.inl h
    · exact Or.inr (List.mem_filter.mp h).1
  · intro h
    rcases h with h | h
    · exact List.mem_append_left _ h
    · by_cases hs : p ∈ S.dirs
      · exact List.mem_append_left _ hs
      · exact List.mem_append_right _ (List.mem_filter.mpr ⟨h, by simpa using hs⟩)

/-- Every directory `mkdir(parents=True)` creates for the parent of `v`
is a nonempty strict ancestor of `v`. -/
theorem prefixList_parent_strict {q v : FPath} (hv : v ≠ [])
    (h : q ∈ prefixList (parentP v)) : q <+: v ∧ q ≠ v ∧ q ≠ [] := by
  rcases prefixList_mem.mp h with ⟨hq, hne⟩
  have hpar : parentP v <+: v := by
    unfold parentP
    rw [List.dropLast_eq_take]
    exact List.take_prefix _ _
  refine ⟨hq.trans hpar, ?_, hne⟩
  intro he
  have h1 := hq.length_le
  rw [he] at h1
  unfold parentP at h1
  rw [List.length_dropLast] at h1
  have h2 : 0 < v.length := List.length_pos.mpr hv
  omega

/-- The state after the conditional parent `mkdir` of `copySingleFile`. -/
theorem mkdirStep_mem (S : FS) (v : FPath) :
    (if parentP v ∈ S.dirs then S else mkdirParents S (parentP v)).files = S.files ∧
    (∀ p ∈ S.dirs, p ∈ (if parentP v ∈ S.dirs then S else mkdirParents S (parentP v)).dirs) ∧
    (∀ p ∈ (if parentP v ∈ S.dirs then S else mkdirParents S (parentP v)).dirs,
      p ∈ S.dirs ∨ p ∈ prefixList (parentP v)) := by
  split
  · exact ⟨rfl, fun p hp => hp, fun p hp => Or.inl hp⟩
  · refine ⟨rfl, ?_, ?_⟩
    · intro p hp
      exact mkdirParents_dirs_mem.mpr (Or.inl hp)
    · intro p hp
      exact mkdirParents_dirs_mem.mp hp

/-! ### Step lemmas for `copySingleFile` during batch execution -/

/-- Executing a file item whose destination is fresh: the destination
file is created, the directories grow only by strict ancestors of the
destination. -/
theorem copySingleFile_file_step (S : FS) (s v : FPath) (force : Bool)
    (hsf : s ∈ S.files) (hsd : s ∉ S.dirs) (hsv : ¬ s <+: v)
    (hv1 : v ∉ S.files) (hv2 : v ∉ S.dirs) (hvne : v ≠ []) :
    ∃ S2, copySingleFile S none s v force false .off = (.okDst v, S2, none) ∧
      (∀ p, p ∈ S2.files ↔ p ∈ S.files ∨ p = v) ∧
      (∀ p ∈ S.dirs, p ∈ S2.dirs) ∧
      (∀ p ∈ S2.dirs, p ∈ S.dirs ∨ (p <+: v ∧ p ≠ v ∧ p ≠ [])) := by
  unfold copySingleFile
  dsimp only
  have hex : existsP S s = true := by
    unfold existsP
    simp [hsf]
  rw [if_neg (by simp [hex])]
  rw [if_neg (by simp [cacheHit])]
  set S1 := if parentP v ∈ S.dirs then S else mkdirParents S (parentP v) with hS1
  obtain ⟨h1f, h1lo, h1hi⟩ := mkdirStep_mem S v
  rw [← hS1] at h1f h1lo h1hi
  have hv1' : v ∉ S1.files := by
    rw [h1f]
    exact hv1
  have hv2' : v ∉ S1.dirs := by
    intro h
    rcases h1hi v h with h | h
    · exact hv2 h
    · exact (prefixList_parent_strict hvne h).2.1 rfl
  have hvex : existsP S1 v = false := by
    unfold existsP
    simp [hv1', hv2']
  rw [if_neg (by simp [hvex])]
  rw [if_neg (by simp : ¬ false = true)]
  have hsd' : s ∉ S1.dirs := by
    intro h
    rcases h1hi s h with h | h
    · exact hsd h
    · exact hsv (prefixList_parent_strict hvne h).1
  rw [if_neg hsd']
  have hsf' : s ∈ S1.files := by
    rw [h1f]
    exact hsf
  rw [if_pos hsf']
  unfold copyfileM
  rw [if_neg hv1']
  unfold sfFinish
  have : existsP { S1 with files := S1.files ++ [v] } v = true := by
    unfold existsP
    simp
  rw [if_neg (by simp [this])]
  refine ⟨_, rfl, ?_, ?_, ?_⟩
  · intro p
    dsimp
    rw [List.mem_append, h1f]
    simp
  · intro p hp
    exact h1lo p hp
  · intro p hp
    rcases h1hi p hp with h | h
    · exact Or.inl h
    · exact Or.inr (prefixList_parent_strict hvne h)

/-- Executing a directory item whose destination is fresh: `copytree`
replicates the source subtree below the destination; the new directories
are the destination, its mapped subtree directories, and strict
ancestors of the destination. -/
theorem copySingleFile_dir_step (S : FS) (s v : FPath) (force : Bool)
    (hsd : s ∈ S.dirs) (hsv : ¬ s <+: v)
    (hv1 : v ∉ S.files) (hv2 : v ∉ S.dirs) (hvne : v ≠ []) :
    ∃ S2, copySingleFile S none s v force false .off = (.okDst v, S2, none) ∧
      (∀ p, p ∈ S2.files ↔ p ∈ S.files ∨
        ∃ q, q ∈ S.files ∧ s <+: q ∧ q ≠ s ∧ p = v ++ q.drop s.length) ∧
      (∀ p ∈ S.dirs, p ∈ S2.dirs) ∧
      (∀ p ∈ S2.dirs, p ∈ S.dirs ∨ (p <+: v ∧ p ≠ v ∧ p ≠ []) ∨ p = v ∨
        ∃ q, q ∈ S.dirs ∧ s <+: q ∧ q ≠ s ∧ p = v ++ q.drop s.length) := by
  unfold copySingleFile
  dsimp only
  have hex : existsP S s = true := by
    unfold existsP
    simp [hsd]
  rw [if_neg (by simp [hex])]
  rw [if_neg (by simp [cacheHit])]
  set S1 := if parentP v ∈ S.dirs then S else mkdirParents S (parentP v) with hS1
  obtain ⟨h1f, h1lo, h1hi⟩ := mkdirStep_mem S v
  rw [← hS1] at h1f h1lo h1hi
  have hv1' : v ∉ S1.files := by
    rw [h1f]
    exact hv1
  have hv2' : v ∉ S1.dirs := by
    intro h
    rcases h1hi v h with h | h
    · exact hv2 h
    · exact (prefixList_parent_strict hvne h).2.1 rfl
  have hvex : existsP S1 v = false := by
    unfold existsP
    simp [hv1', hv2']
  rw [if_neg (by simp [hvex])]
  rw [if_neg (by simp : ¬ false = true)]
  have hsd' : s ∈ S1.dirs := h1lo s hsd
  rw [if_pos hsd']
  unfold copytreeM
  rw [if_neg (by simp [hvex])]
  dsimp only
  unfold sfFinish
  rw [if_neg (by
    unfold existsP
    simp)]
  refine ⟨_, rfl, ?_, ?_, ?_⟩
  · intro p
    dsimp
    rw [List.mem_append, h1f]
    constructor
    · rintro (h | h)
      · exact Or.inl h
      · rcases List.mem_map.mp h with ⟨q, hq, rfl⟩
        unfold descFiles at hq
        rcases List.mem_filter.mp hq with ⟨hq1, hq2⟩
        rw [h1f] at hq1
        simp only [Bool.and_eq_true, decide_eq_true_eq] at hq2
        exact Or.inr ⟨q, hq1, hq2.1, hq2.2, rfl⟩
    · rintro (h | ⟨q, hq1, hq2, hq3, rfl⟩)
      · exact Or.inl h
      · refine Or.inr (List.mem_map.mpr ⟨q, ?_, rfl⟩)
        unfold descFiles
        refine List.mem_filter.mpr ⟨?_, ?_⟩
        · rw [h1f]
          exact hq1
        · simp [hq2, hq3]
  · intro p hp
    refine List.mem_append.mpr (Or.inl (List.mem_append.mpr (Or.inl ?_)))
    exact h1lo p hp
  · intro p hp
    rcases List.mem_append.mp hp with hp | hp
    · rcases List.mem_append.mp hp with hp | hp
      · rcases h1hi p hp with h | h
        · exact Or.inl h
        · exact Or.inr (Or.inl (prefixList_parent_strict hvne h))
      · right
        right
        left
        simpa using hp
    · rcases List.mem_map.mp hp with ⟨q, hq, rfl⟩
      unfold descDirs at hq
      rcases List.mem_filter.mp hq with ⟨hq1, hq2⟩
      simp only [Bool.and_eq_true, decide_eq_true_eq] at hq2
      have hq2' : (s <+: q) ∧ q ≠ s := hq2
      rcases h1hi q hq1 with h | h
      · exact Or.inr (Or.inr (Or.inr ⟨q, h, hq2'.1, hq2'.2, rfl⟩))
      · exfalso
        have hqv := (prefixList_parent_strict hvne h).1
        exact hsv (hq2'.1.trans hqv)

/-! ### The batch-execution invariant -/

/-- Executing a disjoint relative-layout plan from an invariant state:
no exception is raised and the invariant extends over the executed
items.  This is the shared correctness statement for both the fast
(whole-subtree) and the slow (per-file) data of `_copyFiles`. -/
theorem runCopies_exec (fs : FS) (src dst : FPath) (force : Bool)
    (hwf : WFfs fs) (hclean : CleanDst fs dst) (hsep : Sep src dst) :
    ∀ (L done : List (FPath × FPath)) (S : FS),
      (∀ kv ∈ done ++ L, GoodItem fs src dst kv) →
      DisjKeys (done ++ L) →
      ExecInv fs src dst done S →
      (runCopies force false .off L S).1 = none ∧
      ExecInv fs src dst (done ++ L) (runCopies force false .off L S).2 := by
  intro L
  induction L with
  | nil =>
    intro done S hgood hdisj hinv
    refine ⟨rfl, ?_⟩
    simpa using hinv
  | cons item rest ih =>
    intro done S hgood hdisj hinv
    obtain ⟨s, v⟩ := item
    have hcur : GoodItem fs src dst (s, v) := hgood _ (by simp)
    obtain ⟨hsrc_s, hv_eq, hs_fs⟩ := hcur
    dsimp only at hsrc_s hv_eq hs_fs
    have hdstv : dst <+: v := by
      rw [hv_eq]
      exact vOf_starts src dst s
    have hdne : dst ≠ [] := by
      intro h
      exact hsep.2 (h ▸ List.nil_prefix)
    have hvne : v ≠ [] := by
      intro h
      rw [h] at hdstv
      exact hdne (List.prefix_nil.mp hdstv)
    -- decompose the disjointness hypothesis
    unfold DisjKeys at hdisj
    rw [List.pairwise_append] at hdisj
    obtain ⟨hdisj_done, hdisj_cons, hdisj_cross⟩ := hdisj
    rw [List.pairwise_cons] at hdisj_cons
    obtain ⟨hcur_rest, hdisj_rest⟩ := hdisj_cons
    have hdone_cur : ∀ kv ∈ done, ¬ kv.1 <+: s ∧ ¬ s <+: kv.1 := by
      intro kv hkv
      exact hdisj_cross kv hkv (s, v) (by simp)
    have hgood_done : ∀ kv ∈ done, GoodItem fs src dst kv := by
      intro kv hkv
      exact hgood kv (List.mem_append_left _ hkv)
    -- every file contributed so far, and every new directory, is below `dst`
    have hcontrib_dst : ∀ kv ∈ done, ∀ p, contribP fs src dst kv p → dst <+: p := by
      rintro kv hkv p (⟨_, rfl⟩ | ⟨_, q, _, _, _, rfl⟩)
      · rw [(hgood_done kv hkv).2.1]
        exact vOf_starts src dst kv.1
      · exact vOf_starts src dst q
    -- stability of the source side
    have G1 : ∀ x, src <+: x → (x ∈ S.files ↔ x ∈ fs.files) := by
      intro x hx
      constructor
      · intro h
        rcases (hinv.1 x).mp h with h | ⟨kv, hkv, hc⟩
        · exact h
        · exact absurd (hcontrib_dst kv hkv x hc) (fun hd => sep_no_mix hsep hx hd)
      · intro h
        exact (hinv.1 x).mpr (Or.inl h)
    have G2 : ∀ x, src <+: x → (x ∈ S.dirs ↔ x ∈ fs.dirs) := by
      intro x hx
      constructor
      · intro h
        rcases hinv.2.2 x h with h | ⟨kv, hkv, hc⟩
        · exact h
        · exfalso
          have hkv2 : dst <+: kv.2 := by
            rw [(hgood_done kv hkv).2.1]
            exact vOf_starts src dst kv.1
          rcases hc with ⟨hp1, _, _⟩ | ⟨_, hp2 | ⟨q, _, _, _, rfl⟩⟩
          · exact sep_no_mix_anc hsep hx hkv2 hp1
          · exact sep_no_mix hsep hx (hp2 ▸ hkv2)
          · exact sep_no_mix hsep hx (vOf_starts src dst q)
      · intro h
        exact hinv.2.1 x h
    -- the fresh destination
    have F1 : v ∉ S.files := by
      intro hv
      rcases (hinv.1 v).mp hv with h | ⟨kv, hkv, hc⟩
      · exact (hclean v hdstv).1 h
      · have hgkv := hgood_done kv hkv
        rcases hc with ⟨_, hveq⟩ | ⟨_, q, _, hqpre, hqne, hveq⟩
        · have : s = kv.1 := by
            refine vOf_inj dst hsrc_s hgkv.1 ?_
            rw [← hv_eq, ← hgkv.2.1, hveq]
          exact (hdone_cur kv hkv).1 (this ▸ List.prefix_refl _)
        · have hsq : src <+: q := hgkv.1.trans hqpre
          have : s = q := by
            refine vOf_inj dst hsrc_s hsq ?_
            rw [← hv_eq, hveq]
          exact (hdone_cur kv hkv).1 (this ▸ hqpre)
    have F2 : v ∉ S.dirs := by
      intro hv
      rcases hinv.2.2 v hv with h | ⟨kv, hkv, hc⟩
      · exact (hclean v hdstv).2 h
      · have hgkv := hgood_done kv hkv
        rcases hc with ⟨hp1, hp2, _⟩ | ⟨_, hp2 | ⟨q, _, hqpre, hqne, hveq⟩⟩
        · have hpre : s <+: kv.1 := by
            refine vOf_mono dst hsrc_s hgkv.1 ?_
            rw [← hv_eq, ← hgkv.2.1]
            exact hp1
          exact (hdone_cur kv hkv).2 hpre
        · have : s = kv.1 := by
            refine vOf_inj dst hsrc_s hgkv.1 ?_
            rw [← hv_eq, ← hgkv.2.1, hp2]
          exact (hdone_cur kv hkv).1 (this ▸ List.prefix_refl _)
        · have hsq : src <+: q := hgkv.1.trans hqpre
          have : s = q := by
            refine vOf_inj dst hsrc_s hsq ?_
            rw [← hv_eq, hveq]
          exact (hdone_cur kv hkv).1 (this ▸ hqpre)
    have hsv : ¬ s <+: v := fun h => sep_no_mix_anc hsep hsrc_s hdstv h
    -- re-association of the processed prefix
    have hassoc : ∀ (l : List (FPath × FPath)), done ++ ((s, v) :: l) = (done ++ [(s, v)]) ++ l := by
      intro l
      simp
    have hgood' : ∀ kv ∈ (done ++ [(s, v)]) ++ rest, GoodItem fs src dst kv := by
      rw [← hassoc]
      exact hgood
    have hdisj' : DisjKeys ((done ++ [(s, v)]) ++ rest) := by
      rw [← hassoc]
      unfold DisjKeys
      rw [List.pairwise_append, List.pairwise_cons]
      exact ⟨hdisj_done, ⟨hcur_rest, hdisj_rest⟩, hdisj_cross⟩
    rcases hs_fs with hsf0 | hsd0
    -- file item
    · have hS_sf : s ∈ S.files := (G1 s hsrc_s).mpr hsf0
      have hS_sd : s ∉ S.dirs := fun h => (hwf.1 s hsf0) ((G2 s hsrc_s).mp h)
      obtain ⟨S2, heq, h2f, h2lo, h2hi⟩ :=
        copySingleFile_file_step S s v force hS_sf hS_sd hsv F1 F2 hvne
      have hrun : runCopies force false .off ((s, v) :: rest) S =
          runCopies force false .off rest S2 := by
        conv_lhs => unfold runCopies
        rw [heq]
      rw [hrun, hassoc rest]
      have hinv2 : ExecInv fs src dst (done ++ [(s, v)]) S2 := by
        refine ⟨?_, ?_, ?_⟩
        · intro p
          rw [h2f p, hinv.1 p]
          constructor
          · rintro ((h | ⟨kv, hkv, hc⟩) | hpv)
            · exact Or.inl h
            · exact Or.inr ⟨kv, List.mem_append_left _ hkv, hc⟩
            · exact Or.inr ⟨(s, v), by simp, Or.inl ⟨hsf0, hpv⟩⟩
          · rintro (h | ⟨kv, hkv, hc⟩)
            · exact Or.inl (Or.inl h)
            · rcases List.mem_append.mp hkv with hkv | hkv
              · exact Or.inl (Or.inr ⟨kv, hkv, hc⟩)
              · have : kv = (s, v) := by simpa using hkv
                subst this
                rcases hc with ⟨_, hpv⟩ | ⟨hd, _⟩
                · exact Or.inr hpv
                · exact absurd hd (hwf.1 s hsf0)
        · intro p hp
          exact h2lo p (hinv.2.1 p hp)
        · intro p hp
          rcases h2hi p hp with hp' | hp'
          · rcases hinv.2.2 p hp' with h | ⟨kv, hkv, hc⟩
            · exact Or.inl h
            · exact Or.inr ⟨kv, List.mem_append_left _ hkv, hc⟩
          · exact Or.inr ⟨(s, v), by simp, Or.inl ⟨hp'.1, hp'.2.1, hp'.2.2⟩⟩
      exact ih (done ++ [(s, v)]) S2 hgood' hdisj' hinv2
    -- directory item
    · have hS_sd : s ∈ S.dirs := (G2 s hsrc_s).mpr hsd0
      obtain ⟨S2, heq, h2f, h2lo, h2hi⟩ :=
        copySingleFile_dir_step S s v force hS_sd hsv F1 F2 hvne
      have hrun : runCopies force false .off ((s, v) :: rest) S =
          runCopies force false .off rest S2 := by
        conv_lhs => unfold runCopies
        rw [heq]
      rw [hrun, hassoc rest]
      have hinv2 : ExecInv fs src dst (done ++ [(s, v)]) S2 := by
        refine ⟨?_, ?_, ?_⟩
        · intro p
          rw [h2f p, hinv.1 p]
          constructor
          · rintro ((h | ⟨kv, hkv, hc⟩) | ⟨q, hq1, hq2, hq3, rfl⟩)
            · exact Or.inl h
            · exact Or.inr ⟨kv, List.mem_append_left _ hkv, hc⟩
            · have hq0 : q ∈ fs.files := (G1 q (hsrc_s.trans hq2)).mp hq1
              refine Or.inr ⟨(s, v), by simp, Or.inr ⟨hsd0, q, hq0, hq2, hq3, ?_⟩⟩
              rw [← vOf_comp dst hsrc_s hq2, hv_eq]
          · rintro (h | ⟨kv, hkv, hc⟩)
            · exact Or.inl (Or.inl h)
            · rcases List.mem_append.mp hkv with hkv | hkv
              · exact Or.inl (Or.inr ⟨kv, hkv, hc⟩)
              · have : kv = (s, v) := by simpa using hkv
                subst this
                rcases hc with ⟨hf, _⟩ | ⟨_, q, hq1, hq2, hq3, rfl⟩
                · exact absurd hsd0 (hwf.1 s hf)
                · refine Or.inr ⟨q, (G1 q (hsrc_s.trans hq2)).mpr hq1, hq2, hq3, ?_⟩
                  rw [← vOf_comp dst hsrc_s hq2, hv_eq]
        · intro p hp
          exact h2lo p (hinv.2.1 p hp)
        · intro p hp
          rcases h2hi p hp with hp' | hp' | hp' | hp'
          · rcases hinv.2.2 p hp' with h | ⟨kv, hkv, hc⟩
            · exact Or.inl h
            · exact Or.inr ⟨kv, List.mem_append_left _ hkv, hc⟩
          · exact Or.inr ⟨(s, v), by simp, Or.inl ⟨hp'.1, hp'.2.1, hp'.2.2⟩⟩
          · exact Or.inr ⟨(s, v), by simp, Or.inr ⟨hsd0, Or.inl hp'⟩⟩
          · obtain ⟨q, hq1, hq2, hq3, rfl⟩ := hp'
            have hq0 : q ∈ fs.dirs := (G2 q (hsrc_s.trans hq2)).mp hq1
            refine Or.inr ⟨(s, v), by simp, Or.inr ⟨hsd0, Or.inr ⟨q, hq0, hq2, hq3, ?_⟩⟩⟩
            rw [← vOf_comp dst hsrc_s hq2, hv_eq]
      exact ih (done ++ [(s, v)]) S2 hgood' hdisj' hinv2

/-! ### Dictionary lemmas -/

theorem dinsert_fst (k v : FPath) (x : FPath × FPath) :
    (if x.1 = k then (k, v) else x).1 = x.1 := by
  split
  case isTrue h => exact h.symm
  case isFalse => rfl

theorem keysOf_dinsert (m : AList) (k v : FPath) :
    keysOf (dinsert m k v) =
      if m.any (fun kv => decide (kv.1 = k)) then keysOf m else keysOf m ++ [k] := by
  unfold dinsert keysOf
  split
  case isTrue h =>
    rw [List.map_map]
    exact List.map_congr_left (fun x _ => dinsert_fst k v x)
  case isFalse h =>
    rw [List.map_append]
    rfl

theorem dinsert_keys_mem {m : AList} {k v k' : FPath} :
    k' ∈ keysOf (dinsert m k v) ↔ k' ∈ keysOf m ∨ k' = k := by
  rw [keysOf_dinsert]
  split
  case isTrue h =>
    constructor
    · exact Or.inl
    · rintro (h' | rfl)
      · exact h'
      · rcases List.any_eq_true.mp h with ⟨x, hx, hxk⟩
        rw [decide_eq_true_eq] at hxk
        exact hxk ▸ List.mem_map.mpr ⟨x, hx, rfl⟩
  case isFalse h =>
    rw [List.mem_append]
    simp

theorem dinsert_keys_nodup {m : AList} {k v : FPath} (h : (keysOf m).Nodup) :
    (keysOf (dinsert m k v)).Nodup := by
  rw [keysOf_dinsert]
  split
  case isTrue => exact h
  case isFalse hany =>
    rw [List.nodup_append]
    refine ⟨h, List.nodup_singleton _, ?_⟩
    intro x hx hk
    rw [List.mem_singleton] at hk
    subst hk
    rcases List.mem_map.mp hx with ⟨y, hy, hyk⟩
    exact absurd (List.any_eq_true.mpr ⟨y, hy, by simp [hyk]⟩) hany

theorem dinsert_forall {P : FPath × FPath → Prop} {m : AList} {k v : FPath}
    (hm : ∀ kv ∈ m, P kv) (hkv : P (k, v)) : ∀ x ∈ dinsert m k v, P x := by
  intro x hx
  rcases dinsert_mem_or hx with h | h
  · exact hm x h
  · exact h ▸ hkv

/-- Keys inserted by a fold of `dinsert` over a generating list. -/
theorem fold_dinsert_keys_mem (g h : FPath → FPath) (l : List FPath) (m0 : AList)
    (k : FPath) :
    k ∈ keysOf (l.foldl (fun m r => dinsert m (g r) (h r)) m0) ↔
      k ∈ keysOf m0 ∨ ∃ r ∈ l, k = g r := by
  induction l generalizing m0 with
  | nil => simp
  | cons a l ih =>
    rw [List.foldl_cons, ih]
    rw [dinsert_keys_mem]
    constructor
    · rintro ((h' | h') | ⟨r, hr, rfl⟩)
      · exact Or.inl h'
      · exact Or.inr ⟨a, by simp, h'⟩
      · exact Or.inr ⟨r, by simp [hr], rfl⟩
    · rintro (h' | ⟨r, hr, rfl⟩)
      · exact Or.inl (Or.inl h')
      · rcases List.mem_cons.mp hr with rfl | hr
        · exact Or.inl (Or.inr rfl)
        · exact Or.inr ⟨r, hr, rfl⟩

theorem fold_dinsert_keys_nodup (g h : FPath → FPath) (l : List FPath) (m0 : AList)
    (hn : (keysOf m0).Nodup) :
    (keysOf (l.foldl (fun m r => dinsert m (g r) (h r)) m0)).Nodup := by
  induction l generalizing m0 with
  | nil => exact hn
  | cons a l ih =>
    rw [List.foldl_cons]
    exact ih _ (dinsert_keys_nodup hn)

theorem fold_dinsert_forall {P : FPath × FPath → Prop} (g h : FPath → FPath)
    (l : List FPath) (m0 : AList)
    (hm : ∀ kv ∈ m0, P kv) (hl : ∀ r ∈ l, P (g r, h r)) :
    ∀ x ∈ l.foldl (fun m r => dinsert m (g r) (h r)) m0, P x := by
  induction l generalizing m0 with
  | nil => exact hm
  | cons a l ih =>
    rw [List.foldl_cons]
    refine ih _ (dinsert_forall hm (hl a (by simp))) ?_
    intro r hr
    exact hl r (by simp [hr])

/-! ### Goodness of the collected plan -/

theorem collectStep_good (fs : FS) (src dst : FPath) (b : Bool)
    (acc : AList × AList) (p : FPath) (hp : src <+: p)
    (h1 : ∀ kv ∈ acc.1, GoodFile fs src dst kv)
    (h2 : ∀ kv ∈ acc.2, GoodDir fs src dst kv) :
    (∀ kv ∈ (collectStep fs src dst true b acc p).1, GoodFile fs src dst kv) ∧
    (∀ kv ∈ (collectStep fs src dst true b acc p).2, GoodDir fs src dst kv) := by
  unfold collectStep
  split
  · exact ⟨h1, h2⟩
  · dsimp only
    split
    case isTrue hd =>
      refine ⟨h1, dinsert_forall h2 ?_⟩
      exact ⟨hp, rfl, hd⟩
    case isFalse hd =>
      split
      case isTrue hf =>
        refine ⟨dinsert_forall h1 ?_, h2⟩
        exact ⟨hp, rfl, hf⟩
      case isFalse => exact ⟨h1, h2⟩

theorem collectFold_good (fs : FS) (src dst : FPath) (b : Bool) :
    ∀ (ps : List FPath) (acc : AList × AList),
      (∀ p ∈ ps, src <+: p) →
      (∀ kv ∈ acc.1, GoodFile fs src dst kv) →
      (∀ kv ∈ acc.2, GoodDir fs src dst kv) →
      (∀ kv ∈ (ps.foldl (fun a p => collectStep fs src dst true b a p) acc).1,
        GoodFile fs src dst kv) ∧
      (∀ kv ∈ (ps.foldl (fun a p => collectStep fs src dst true b a p) acc).2,
        GoodDir fs src dst kv) := by
  intro ps
  induction ps with
  | nil => exact fun acc _ h1 h2 => ⟨h1, h2⟩
  | cons p ps ih =>
    intro acc hp h1 h2
    rw [List.foldl_cons]
    have hstep := collectStep_good fs src dst b acc p (hp p (by simp)) h1 h2
    exact ih _ (fun q hq => hp q (by simp [hq])) hstep.1 hstep.2

theorem collectContent_good (fs : FS) (src dst : FPath) (sels : List Selector)
    (hsels : ∀ g ∈ sels, ∀ p ∈ candsOf src g, src <+: p) :
    (∀ kv ∈ (collectContent fs src dst sels true).1, GoodFile fs src dst kv) ∧
    (∀ kv ∈ (collectContent fs src dst sels true).2, GoodDir fs src dst kv) := by
  unfold collectContent
  dsimp only
  suffices h : ∀ (gs : List Selector) (acc : AList × AList),
      (∀ g ∈ gs, ∀ p ∈ candsOf src g, src <+: p) →
      (∀ kv ∈ acc.1, GoodFile fs src dst kv) →
      (∀ kv ∈ acc.2, GoodDir fs src dst kv) →
      (∀ kv ∈ (gs.foldl (fun a g => (candsOf src g).foldl
        (fun a p => collectStep fs src dst true (decide (src <+: dst ∧ src ≠ dst)) a p) a)
        acc).1, GoodFile fs src dst kv) ∧
      (∀ kv ∈ (gs.foldl (fun a g => (candsOf src g).foldl
        (fun a p => collectStep fs src dst true (decide (src <+: dst ∧ src ≠ dst)) a p) a)
        acc).2, GoodDir fs src dst kv) by
    exact h sels ([], []) hsels (by simp) (by simp)
  intro gs
  induction gs with
  | nil => exact fun acc _ h1 h2 => ⟨h1, h2⟩
  | cons g gs ih =>
    intro acc hg h1 h2
    rw [List.foldl_cons]
    have hstep := collectFold_good fs src dst (decide (src <+: dst ∧ src ≠ dst))
      (candsOf src g) acc (hg g (by simp)) h1 h2
    exact ih _ (fun g' hg' => hg g' (by simp [hg'])) hstep.1 hstep.2

theorem collectContent_keys_nodup (fs : FS) (src dst : FPath) (sels : List Selector)
    (rel : Bool) :
    (keysOf (collectContent fs src dst sels rel).1).Nodup ∧
    (keysOf (collectContent fs src dst sels rel).2).Nodup := by
  unfold collectContent
  dsimp only
  have hstep : ∀ (acc : AList × AList) (p : FPath),
      (keysOf acc.1).Nodup → (keysOf acc.2).Nodup →
      (keysOf (collectStep fs src dst rel (decide (src <+: dst ∧ src ≠ dst)) acc p).1).Nodup ∧
      (keysOf (collectStep fs src dst rel (decide (src <+: dst ∧ src ≠ dst)) acc p).2).Nodup := by
    intro acc p h1 h2
    unfold collectStep
    split
    · exact ⟨h1, h2⟩
    · dsimp only
      split
      · exact ⟨h1, dinsert_keys_nodup h2⟩
      · split
        · exact ⟨dinsert_keys_nodup h1, h2⟩
        · exact ⟨h1, h2⟩
  have hfold : ∀ (ps : List FPath) (acc : AList × AList),
      (keysOf acc.1).Nodup → (keysOf acc.2).Nodup →
      (keysOf (ps.foldl (fun a p =>
        collectStep fs src dst rel (decide (src <+: dst ∧ src ≠ dst)) a p) acc).1).Nodup ∧
      (keysOf (ps.foldl (fun a p =>
        collectStep fs src dst rel (decide (src <+: dst ∧ src ≠ dst)) a p) acc).2).Nodup := by
    intro ps
    induction ps with
    | nil => exact fun acc h1 h2 => ⟨h1, h2⟩
    | cons p ps ih =>
      intro acc h1 h2
      rw [List.foldl_cons]
      have := hstep acc p h1 h2
      exact ih _ this.1 this.2
  suffices h : ∀ (gs : List Selector) (acc : AList × AList),
      (keysOf acc.1).Nodup → (keysOf acc.2).Nodup →
      (keysOf ((gs.foldl (fun a g => (candsOf src g).foldl
        (fun a p => collectStep fs src dst rel (decide (src <+: dst ∧ src ≠ dst)) a p) a)
        acc)).1).Nodup ∧
      (keysOf ((gs.foldl (fun a g => (candsOf src g).foldl
        (fun a p => collectStep fs src dst rel (decide (src <+: dst ∧ src ≠ dst)) a p) a)
        acc)).2).Nodup by
    exact h sels ([], []) (by simp [keysOf]) (by simp [keysOf])
  intro gs
  induction gs with
  | nil => exact fun acc h1 h2 => ⟨h1, h2⟩
  | cons g gs ih =>
    intro acc h1 h2
    rw [List.foldl_cons]
    have := hfold (candsOf src g) acc h1 h2
    exact ih _ this.1 this.2

/-! ### Goodness and keys of the expanded plan -/

theorem expandOne_good (fs : FS) (src dst : FPath) (acc : AList × AList) (sd dd : FPath)
    (hgd : GoodDir fs src dst (sd, dd))
    (h1 : ∀ kv ∈ acc.1, GoodFile fs src dst kv)
    (h2 : ∀ kv ∈ acc.2, GoodDir fs src dst kv) :
    (∀ kv ∈ (expandOne fs acc sd dd).1, GoodFile fs src dst kv) ∧
    (∀ kv ∈ (expandOne fs acc sd dd).2, GoodDir fs src dst kv) := by
  obtain ⟨hsd_src, hdd, hsd_dir⟩ := hgd
  dsimp only at hsd_src hdd hsd_dir
  unfold expandOne
  dsimp only
  constructor
  · refine fold_dinsert_forall _ _ _ _ h1 ?_
    intro r hr
    rcases List.mem_map.mp hr with ⟨q, hq, rfl⟩
    unfold descFiles at hq
    rcases List.mem_filter.mp hq with ⟨hq1, hq2⟩
    simp only [Bool.and_eq_true, decide_eq_true_eq] at hq2
    have hkey : sd ++ q.drop sd.length = q := prefix_append_drop hq2.1
    refine ⟨?_, ?_, ?_⟩
    · dsimp only
      rw [hkey]
      exact hsd_src.trans hq2.1
    · dsimp only
      rw [hkey, hdd]
      exact vOf_comp dst hsd_src hq2.1
    · dsimp only
      rw [hkey]
      exact hq1
  · refine fold_dinsert_forall _ _ _ _ h2 ?_
    intro r hr
    rcases List.mem_map.mp hr with ⟨q, hq, rfl⟩
    unfold descDirs at hq
    rcases List.mem_filter.mp hq with ⟨hq1, hq2⟩
    simp only [Bool.and_eq_true, decide_eq_true_eq] at hq2
    have hkey : sd ++ q.drop sd.length = q := prefix_append_drop hq2.1
    refine ⟨?_, ?_, ?_⟩
    · dsimp only
      rw [hkey]
      exact hsd_src.trans hq2.1
    · dsimp only
      rw [hkey, hdd]
      exact vOf_comp dst hsd_src hq2.1
    · dsimp only
      rw [hkey]
      exact hq1

theorem expandSubdirs_good (fs : FS) (src dst : FPath) (files dirs : AList)
    (h1 : ∀ kv ∈ files, GoodFile fs src dst kv)
    (h2 : ∀ kv ∈ dirs, GoodDir fs src dst kv) :
    (∀ kv ∈ (expandSubdirs fs files dirs).1, GoodFile fs src dst kv) ∧
    (∀ kv ∈ (expandSubdirs fs files dirs).2, GoodDir fs src dst kv) := by
  unfold expandSubdirs
  suffices h : ∀ (l : List (FPath × FPath)) (acc : AList × AList),
      (∀ kv ∈ l, GoodDir fs src dst kv) →
      (∀ kv ∈ acc.1, GoodFile fs src dst kv) →
      (∀ kv ∈ acc.2, GoodDir fs src dst kv) →
      (∀ kv ∈ (l.foldl (fun acc kv => expandOne fs acc kv.1 kv.2) acc).1,
        GoodFile fs src dst kv) ∧
      (∀ kv ∈ (l.foldl (fun acc kv => expandOne fs acc kv.1 kv.2) acc).2,
        GoodDir fs src dst kv) by
    exact h dirs (files, dirs) h2 h1 h2
  intro l
  induction l with
  | nil => exact fun acc _ h1 h2 => ⟨h1, h2⟩
  | cons a l ih =>
    intro acc hl h1 h2
    rw [List.foldl_cons]
    have hstep := expandOne_good fs src dst acc a.1 a.2 (hl a (by simp)) h1 h2
    exact ih _ (fun kv hkv => hl kv (by simp [hkv])) hstep.1 hstep.2

theorem expandOne_keys (fs : FS) (acc : AList × AList) (sd dd : FPath) (k : FPath) :
    k ∈ keysOf (expandOne fs acc sd dd).1 ↔
      k ∈ keysOf acc.1 ∨ (k ∈ fs.files ∧ sd <+: k ∧ k ≠ sd) := by
  unfold expandOne
  dsimp only
  rw [fold_dinsert_keys_mem]
  constructor
  · rintro (h | ⟨r, hr, rfl⟩)
    · exact Or.inl h
    · rcases List.mem_map.mp hr with ⟨q, hq, rfl⟩
      unfold descFiles at hq
      rcases List.mem_filter.mp hq with ⟨hq1, hq2⟩
      simp only [Bool.and_eq_true, decide_eq_true_eq] at hq2
      rw [prefix_append_drop hq2.1]
      exact Or.inr ⟨hq1, hq2.1, hq2.2⟩
  · rintro (h | ⟨h1, h2, h3⟩)
    · exact Or.inl h
    · refine Or.inr ⟨k.drop sd.length, List.mem_map.mpr ⟨k, ?_, rfl⟩, ?_⟩
      · unfold descFiles
        exact List.mem_filter.mpr ⟨h1, by simp [h2, h3]⟩
      · exact (prefix_append_drop h2).symm

theorem expandSubdirs_keys (fs : FS) (files dirs : AList) (k : FPath) :
    k ∈ keysOf (expandSubdirs fs files dirs).1 ↔
      k ∈ keysOf files ∨ ∃ kv ∈ dirs, k ∈ fs.files ∧ kv.1 <+: k ∧ k ≠ kv.1 := by
  unfold expandSubdirs
  suffices h : ∀ (l : List (FPath × FPath)) (acc : AList × AList),
      k ∈ keysOf (l.foldl (fun acc kv => expandOne fs acc kv.1 kv.2) acc).1 ↔
        k ∈ keysOf acc.1 ∨ ∃ kv ∈ l, k ∈ fs.files ∧ kv.1 <+: k ∧ k ≠ kv.1 by
    exact h dirs (files, dirs)
  intro l
  induction l with
  | nil => simp
  | cons a l ih =>
    intro acc
    rw [List.foldl_cons, ih, expandOne_keys]
    constructor
    · rintro ((h | h) | ⟨kv, hkv, h⟩)
      · exact Or.inl h
      · exact Or.inr ⟨a, by simp, h.1, h.2.1, h.2.2⟩
      · exact Or.inr ⟨kv, by simp [hkv], h⟩
    · rintro (h | ⟨kv, hkv, h⟩)
      · exact Or.inl (Or.inl h)
      · rcases List.mem_cons.mp hkv with rfl | hkv
        · exact Or.inl (Or.inr ⟨h.1, h.2.1, h.2.2⟩)
        · exact Or.inr ⟨kv, hkv, h⟩

theorem expandSubdirs_keys_nodup (fs : FS) (files dirs : AList)
    (h : (keysOf files).Nodup) : (keysOf (expandSubdirs fs files dirs).1).Nodup := by
  unfold expandSubdirs
  suffices hs : ∀ (l : List (FPath × FPath)) (acc : AList × AList),
      (keysOf acc.1).Nodup →
      (keysOf (l.foldl (fun acc kv => expandOne fs acc kv.1 kv.2) acc).1).Nodup by
    exact hs dirs (files, dirs) h
  intro l
  induction l with
  | nil => exact fun acc h1 => h1
  | cons a l ih =>
    intro acc h1
    rw [List.foldl_cons]
    refine ih _ ?_
    unfold expandOne
    dsimp only
    exact fold_dinsert_keys_nodup _ _ _ _ h1

/-- Files of a well-formed filesystem, pairwise distinct as keys, form a
disjoint plan: no file contains another. -/
theorem disj_of_files (fs : FS) (src dst : FPath) (hwf : WFfs fs) :
    ∀ (m : AList), (∀ kv ∈ m, GoodFile fs src dst kv) → (keysOf m).Nodup →
      DisjKeys m := by
  intro m
  induction m with
  | nil => exact fun _ _ => List.Pairwise.nil
  | cons a l ih =>
    intro hgood hnd
    have hnd' : a.1 ∉ keysOf l ∧ (keysOf l).Nodup := by
      rw [show keysOf (a :: l) = a.1 :: keysOf l from rfl, List.nodup_cons] at hnd
      exact hnd
    unfold DisjKeys
    rw [List.pairwise_cons]
    refine ⟨?_, ih (fun kv hkv => hgood kv (by simp [hkv])) hnd'.2⟩
    intro b hb
    have ha := hgood a (by simp)
    have hbg := hgood b (by simp [hb])
    have hne : a.1 ≠ b.1 := by
      intro he
      exact hnd'.1 (he ▸ List.mem_map.mpr ⟨b, hb, rfl⟩)
    constructor
    · intro hpre
      exact ((hwf.2 a.1 ha.2.2 b.1 hpre (Ne.symm hne)).1) hbg.2.2
    · intro hpre
      exact ((hwf.2 b.1 hbg.2.2 a.1 hpre hne).1) ha.2.2

/-! ### Sorting is a permutation -/

theorem insSorted_perm (le : FPath × FPath → FPath × FPath → Bool)
    (x : FPath × FPath) (l : List (FPath × FPath)) :
    (insSorted le x l).Perm (x :: l) := by
  induction l with
  | nil => exact List.Perm.refl _
  | cons y ys ih =>
    unfold insSorted
    split
    · exact List.Perm.refl _
    · exact (List.Perm.cons y ih).trans (List.Perm.swap x y ys)

theorem sortPairs_perm (l : List (FPath × FPath)) : (sortPairs l).Perm l := by
  unfold sortPairs
  induction l with
  | nil => exact List.Perm.refl _
  | cons a l ih =>
    rw [List.foldr_cons]
    exact (insSorted_perm pairLe a _).trans (List.Perm.cons a ih)

/-! ### The contribution bridge between the two execution paths -/

/-- The files deposited by the pre-expansion plan (fast path) are exactly
the destinations of the expanded files map (slow path). -/
theorem contrib_bridge (fs : FS) (src dst : FPath) (hwf : WFfs fs)
    (col1 col2 : AList)
    (hGF : ∀ kv ∈ col1, GoodFile fs src dst kv)
    (hGD : ∀ kv ∈ col2, GoodDir fs src dst kv)
    (p : FPath) :
    (∃ kv ∈ col1 ++ col2, contribP fs src dst kv p) ↔
    (∃ kv ∈ (expandSubdirs fs col1 col2).1, contribP fs src dst kv p) := by
  have hGFe := (expandSubdirs_good fs src dst col1 col2 hGF hGD).1
  constructor
  · rintro ⟨kv, hkv, hc⟩
    rcases List.mem_append.mp hkv with hkv | hkv
    · have hg := hGF kv hkv
      rcases hc with ⟨_, hpv⟩ | ⟨hd, _⟩
      · have hkey : kv.1 ∈ keysOf (expandSubdirs fs col1 col2).1 :=
          (expandSubdirs_keys fs col1 col2 kv.1).mpr
            (Or.inl (List.mem_map.mpr ⟨kv, hkv, rfl⟩))
        rcases List.mem_map.mp hkey with ⟨kv', hkv', hk'⟩
        have hg' := hGFe kv' hkv'
        refine ⟨kv', hkv', Or.inl ⟨hg'.2.2, ?_⟩⟩
        rw [hpv, hg.2.1, hg'.2.1, hk']
      · exact absurd hd (hwf.1 kv.1 hg.2.2)
    · have hg := hGD kv hkv
      rcases hc with ⟨hf, _⟩ | ⟨_, q, hqf, hqpre, hqne, hpv⟩
      · exact absurd hg.2.2 (hwf.1 kv.1 hf)
      · have hkey : q ∈ keysOf (expandSubdirs fs col1 col2).1 :=
          (expandSubdirs_keys fs col1 col2 q).mpr
            (Or.inr ⟨kv, hkv, hqf, hqpre, hqne⟩)
        rcases List.mem_map.mp hkey with ⟨kv', hkv', hk'⟩
        have hg' := hGFe kv' hkv'
        refine ⟨kv', hkv', Or.inl ⟨hg'.2.2, ?_⟩⟩
        rw [hpv, hg'.2.1, hk']
  · rintro ⟨kv, hkv, hc⟩
    have hg := hGFe kv hkv
    rcases hc with ⟨_, hpv⟩ | ⟨hd, _⟩
    · have hkey : kv.1 ∈ keysOf (expandSubdirs fs col1 col2).1 :=
        List.mem_map.mpr ⟨kv, hkv, rfl⟩
      rcases (expandSubdirs_keys fs col1 col2 kv.1).mp hkey with h | ⟨kvd, hkvd, hkf, hkpre, hkne⟩
      · rcases List.mem_map.mp h with ⟨kv0, hkv0, hk0⟩
        have hg0 := hGF kv0 hkv0
        refine ⟨kv0, List.mem_append_left _ hkv0, Or.inl ⟨hg0.2.2, ?_⟩⟩
        rw [hpv, hg.2.1, hg0.2.1, hk0]
      · have hgd := hGD kvd hkvd
        refine ⟨kvd, List.mem_append_right _ hkvd,
          Or.inr ⟨hgd.2.2, kv.1, hkf, hkpre, hkne, ?_⟩⟩
        rw [hpv, hg.2.1]
    · exact absurd hd (hwf.1 kv.1 hg.2.2)

/-- Decidable sufficient condition for `WFfs`. -/
theorem WFfs_of_bounded (fs : FS)
    (h1 : ∀ p ∈ fs.files, p ∉ fs.dirs)
    (h2 : ∀ p ∈ fs.files, ∀ q ∈ fs.files, p <+: q → q = p)
    (h3 : ∀ p ∈ fs.files, ∀ q ∈ fs.dirs, ¬ p <+: q) : WFfs fs := by
  refine ⟨h1, ?_⟩
  intro p hp q hpre hne
  constructor
  · intro hq
    exact hne (h2 p hp q hq hpre)
  · intro hq
    exact h3 p hp q hq hpre

/-- Decidable sufficient condition for `CleanDst`. -/
theorem CleanDst_of_bounded (fs : FS) (dst : FPath)
    (h1 : ∀ p ∈ fs.files, ¬ dst <+: p)
    (h2 : ∀ p ∈ fs.dirs, ¬ dst <+: p) : CleanDst fs dst := by
  intro p hp
  exact ⟨fun h => h1 p h hp, fun h => h2 p h hp⟩

/-- C4 (counterexample): with the matched directory `s/a` holding only
the empty directory `s/a/e`, the fast path (`copytree` of the
pre-expansion data) creates `d/a/e` at the destination while the slow
path (per-file copies of the expanded files map, which is empty) creates
nothing: the two execution paths do not produce the same final
destination tree. -/
theorem claimC4_counterexample :
    (["d", "a", "e"] : FPath) ∈ (runCopies false false .off
      (sortPairs ((collectContent fsC4ex ["s"] ["d"] [.matches [["s", "a"]]] true).1 ++
        (collectContent fsC4ex ["s"] ["d"] [.matches [["s", "a"]]] true).2)) fsC4ex).2.dirs ∧
    (["d", "a", "e"] : FPath) ∉ (runCopies false false .off
      (sortPairs (expandSubdirs fsC4ex
        (collectContent fsC4ex ["s"] ["d"] [.matches [["s", "a"]]] true).1
        (collectContent fsC4ex ["s"] ["d"] [.matches [["s", "a"]]] true).2).1) fsC4ex).2.dirs := by
  refine ⟨by decide, by decide⟩

/-- C4 (amended): for a relative-layout invocation without a rename hook
on a well-formed filesystem with a clean destination, separated roots,
selectors matching below the source, and pairwise non-nested matches,
the fast execution path (the sorted pre-expansion data, directories
copied as whole subtrees) and the slow execution path (the sorted
expanded per-file data) produce the same final set of destination
*files*, for every value of `force` (with `move` and `counted` off).
The directory trees may differ: the fast path also materialises empty
directories, see the counterexample. -/
theorem claimC4_amended (fs : FS) (src dst : FPath) (sels : List Selector) (force : Bool)
    (hwf : WFfs fs) (hclean : CleanDst fs dst) (hsep : Sep src dst)
    (hsels : ∀ g ∈ sels, ∀ p ∈ candsOf src g, src <+: p)
    (hdisj : DisjKeys ((collectContent fs src dst sels true).1 ++
      (collectContent fs src dst sels true).2))
    (p : FPath) :
    p ∈ (runCopies force false .off
      (sortPairs ((collectContent fs src dst sels true).1 ++
        (collectContent fs src dst sels true).2)) fs).2.files ↔
    p ∈ (runCopies force false .off
      (sortPairs (expandSubdirs fs (collectContent fs src dst sels true).1
        (collectContent fs src dst sels true).2).1) fs).2.files := by
  obtain ⟨hGF, hGD⟩ := collectContent_good fs src dst sels hsels
  obtain ⟨hnd1, hnd2⟩ := collectContent_keys_nodup fs src dst sels true
  have hinv0 : ExecInv fs src dst [] fs :=
    ⟨fun q => by simp, fun q hq => hq, fun q hq => Or.inl hq⟩
  have hsymm : ∀ {x y : FPath × FPath},
      (¬ x.1 <+: y.1 ∧ ¬ y.1 <+: x.1) → (¬ y.1 <+: x.1 ∧ ¬ x.1 <+: y.1) :=
    fun h => ⟨h.2, h.1⟩
  -- the fast run
  have hperm_f := sortPairs_perm ((collectContent fs src dst sels true).1 ++
    (collectContent fs src dst sels true).2)
  have hgood_f : ∀ kv ∈ ([] : List (FPath × FPath)) ++
      sortPairs ((collectContent fs src dst sels true).1 ++
        (collectContent fs src dst sels true).2), GoodItem fs src dst kv := by
    intro kv hkv
    rw [List.nil_append] at hkv
    rcases List.mem_append.mp (hperm_f.mem_iff.mp hkv) with h | h
    · exact ⟨(hGF kv h).1, (hGF kv h).2.1, Or.inl (hGF kv h).2.2⟩
    · exact ⟨(hGD kv h).1, (hGD kv h).2.1, Or.inr (hGD kv h).2.2⟩
  have hdisj_f : DisjKeys (([] : List (FPath × FPath)) ++
      sortPairs ((collectContent fs src dst sels true).1 ++
        (collectContent fs src dst sels true).2)) := by
    rw [List.nil_append]
    exact (List.Perm.pairwise_iff hsymm hperm_f).mpr hdisj
  obtain ⟨-, hinvF⟩ := runCopies_exec fs src dst force hwf hclean hsep
    (sortPairs ((collectContent fs src dst sels true).1 ++
      (collectContent fs src dst sels true).2)) [] fs hgood_f hdisj_f hinv0
  -- the slow run
  have hGFe := (expandSubdirs_good fs src dst
    (collectContent fs src dst sels true).1 (collectContent fs src dst sels true).2 hGF hGD).1
  have hnde := expandSubdirs_keys_nodup fs
    (collectContent fs src dst sels true).1 (collectContent fs src dst sels true).2 hnd1
  have hdisj_e : DisjKeys (expandSubdirs fs (collectContent fs src dst sels true).1
      (collectContent fs src dst sels true).2).1 :=
    disj_of_files fs src dst hwf _ hGFe hnde
  have hperm_s := sortPairs_perm (expandSubdirs fs
    (collectContent fs src dst sels true).1 (collectContent fs src dst sels true).2).1
  have hgood_s : ∀ kv ∈ ([] : List (FPath × FPath)) ++
      sortPairs (expandSubdirs fs (collectContent fs src dst sels true).1
        (collectContent fs src dst sels true).2).1, GoodItem fs src dst kv := by
    intro kv hkv
    rw [List.nil_append] at hkv
    have h := hperm_s.mem_iff.mp hkv
    exact ⟨(hGFe kv h).1, (hGFe kv h).2.1, Or.inl (hGFe kv h).2.2⟩
  have hdisj_s : DisjKeys (([] : List (FPath × FPath)) ++
      sortPairs (expandSubdirs fs (collectContent fs src dst sels true).1
        (collectContent fs src dst sels true).2).1) := by
    rw [List.nil_append]
    exact (List.Perm.pairwise_iff hsymm hperm_s).mpr hdisj_e
  obtain ⟨-, hinvS⟩ := runCopies_exec fs src dst force hwf hclean hsep
    (sortPairs (expandSubdirs fs (collectContent fs src dst sels true).1
      (collectContent fs src dst sels true).2).1) [] fs hgood_s hdisj_s hinv0
  -- combine the two characterisations through the bridge
  rw [List.nil_append] at hinvF hinvS
  rw [hinvF.1 p, hinvS.1 p]
  constructor
  · rintro (h | ⟨kv, hkv, hc⟩)
    · exact Or.inl h
    · refine Or.inr ?_
      have h1 : ∃ kv ∈ (collectContent fs src dst sels true).1 ++
          (collectContent fs src dst sels true).2, contribP fs src dst kv p :=
        ⟨kv, hperm_f.mem_iff.mp hkv, hc⟩
      obtain ⟨kv', hkv', hc'⟩ := (contrib_bridge fs src dst hwf _ _ hGF hGD p).mp h1
      exact ⟨kv', hperm_s.mem_iff.mpr hkv', hc'⟩
  · rintro (h | ⟨kv, hkv, hc⟩)
    · exact Or.inl h
    · refine Or.inr ?_
      have h1 : ∃ kv ∈ (expandSubdirs fs (collectContent fs src dst sels true).1
          (collectContent fs src dst sels true).2).1, contribP fs src dst kv p :=
        ⟨kv, hperm_s.mem_iff.mp hkv, hc⟩
      obtain ⟨kv', hkv', hc'⟩ := (contrib_bridge fs src dst hwf _ _ hGF hGD p).mpr h1
      exact ⟨kv', hperm_f.mem_iff.mpr hkv', hc'⟩

/-- C4 (witness): the amended theorem applied to a matched directory
holding a file and a nested file: the destination file `d/a/b/f2` is
produced by the slow path because it is produced by the fast path. -/
theorem claimC4_witness :
    (["d", "a", "b", "f2"] : FPath) ∈ (runCopies false false .off
      (sortPairs (expandSubdirs fsC4w
        (collectContent fsC4w ["s"] ["d"] [.matches [["s", "a"]]] true).1
        (collectContent fsC4w ["s"] ["d"] [.matches [["s", "a"]]] true).2).1)
      fsC4w).2.files :=
  (claimC4_amended fsC4w ["s"] ["d"] [.matches [["s", "a"]]] false
    (WFfs_of_bounded fsC4w (by decide) (by decide) (by decide))
    (CleanDst_of_bounded fsC4w ["d"] (by decide) (by decide))
    (by constructor <;> decide)
    (by decide)
    (by unfold DisjKeys
        decide)
    ["d", "a", "b", "f2"]).mp (by decide)

end Fileio
